import Mathlib

/-!
Verification development for the certificate-verifier web application
(src/verifier.js and src/crypt.js).

JavaScript strings are modelled as lists of UTF-16 code units (List Nat),
byte buffers as lists of byte values (List Nat, each < 256).  JSON values
are modelled by the inductive type JsonValue below; JSON numbers are
modelled as integers (the only numeric values exercised by the claims; the
specification itself leaves the numeric formatting rule open).  The
platform services used by the source (JSON.parse, JSON.stringify, the
TextDecoder/TextEncoder encodings, atob, and the WebCrypto verify
primitive) are modelled from their specifications, as noted at each
definition.
-/

/-! ### Basic character classes -/

/-- Decimal digit code unit (0x30..0x39). -/
def isDigitB (c : Nat) : Bool := 0x30 ≤ c && c ≤ 0x39

/-- JSON whitespace code unit: space, tab, LF, CR. -/
def isWsJ (c : Nat) : Bool := c = 0x20 || c = 0x09 || c = 0x0a || c = 0x0d

/-- PDF whitespace byte as tested by the source (space, CR, LF, tab, form feed). -/
def pdfIsWhite (c : Nat) : Bool := c = 0x20 || c = 0x0d || c = 0x0a || c = 0x09 || c = 0x0c

/-! ### UTF-16 code-unit lexicographic order (JavaScript string comparison)

JavaScript compares strings (and the default Array.prototype.sort sorts
them) by UTF-16 code units, lexicographically.  We model JS strings as
List Nat of code units and define the order recursively. -/

/-- Strict lexicographic order on code-unit lists (the JS string < operator). -/
def cuLt : List Nat → List Nat → Bool
  | [], [] => false
  | [], _ :: _ => true
  | _ :: _, [] => false
  | a :: as, b :: bs => decide (a < b) || (decide (a = b) && cuLt as bs)

/-- Reflexive lexicographic order on code-unit lists. -/
def cuLe : List Nat → List Nat → Bool
  | [], _ => true
  | _ :: _, [] => false
  | a :: as, b :: bs => decide (a < b) || (decide (a = b) && cuLe as bs)

theorem cuLe_refl (a : List Nat) : cuLe a a = true := by
  induction a with
  | nil => rfl
  | cons x xs ih => simp [cuLe, ih]

theorem cuLe_total (a b : List Nat) : cuLe a b = true ∨ cuLe b a = true := by
  induction a generalizing b with
  | nil => left; rfl
  | cons x xs ih =>
    cases b with
    | nil => right; rfl
    | cons y ys =>
      rcases Nat.lt_trichotomy x y with h | h | h
      · left; simp [cuLe, h]
      · subst h
        rcases ih ys with h2 | h2
        · left; simp [cuLe, h2]
        · right; simp [cuLe, h2]
      · right; simp [cuLe, h]

theorem cuLe_antisymm {a b : List Nat} (h1 : cuLe a b = true) (h2 : cuLe b a = true) :
    a = b := by
  induction a generalizing b with
  | nil => cases b with
    | nil => rfl
    | cons y ys => simp [cuLe] at h2
  | cons x xs ih =>
    cases b with
    | nil => simp [cuLe] at h1
    | cons y ys =>
      simp only [cuLe, Bool.or_eq_true, Bool.and_eq_true, decide_eq_true_eq] at h1 h2
      rcases h1 with h1 | ⟨h1e, h1r⟩
      · rcases h2 with h2 | ⟨h2e, _⟩
        · omega
        · omega
      · rcases h2 with h2 | ⟨h2e, h2r⟩
        · omega
        · subst h1e; rw [ih h1r h2r]

theorem cuLe_trans {a b c : List Nat} (h1 : cuLe a b = true) (h2 : cuLe b c = true) :
    cuLe a c = true := by
  induction a generalizing b c with
  | nil => rfl
  | cons x xs ih =>
    cases b with
    | nil => simp [cuLe] at h1
    | cons y ys =>
      cases c with
      | nil => simp [cuLe] at h2
      | cons z zs =>
        simp only [cuLe, Bool.or_eq_true, Bool.and_eq_true, decide_eq_true_eq] at h1 h2 ⊢
        rcases h1 with h1 | ⟨h1e, h1r⟩
        · rcases h2 with h2 | ⟨h2e, _⟩
          · left; omega
          · left; omega
        · rcases h2 with h2 | ⟨h2e, h2r⟩
          · left; omega
          · right; exact ⟨by omega, ih h1r h2r⟩

/-! ### A stable insertion sort over a boolean comparator

Array.prototype.sort is specified to produce a stable, sorted permutation
of its input; the concrete algorithm is implementation defined.  We model
it by insertion sort, which is executable and kernel-reducible. -/

/-- Insert an element into a list so that it lands before the first element
it compares ≤ to. -/
def insertLe (le : α → α → Bool) (a : α) : List α → List α
  | [] => [a]
  | b :: tl => if le a b then a :: b :: tl else b :: insertLe le a tl

/-- Stable insertion sort by a boolean comparator. -/
def sortLe (le : α → α → Bool) : List α → List α
  | [] => []
  | a :: tl => insertLe le a (sortLe le tl)

theorem insertLe_perm (le : α → α → Bool) (a : α) (l : List α) :
    (insertLe le a l).Perm (a :: l) := by
  induction l with
  | nil => exact List.Perm.refl _
  | cons b tl ih =>
    simp only [insertLe]
    by_cases h : le a b = true
    · simp [h]
    · simp only [h, if_false, Bool.false_eq_true]
      exact ((ih.cons b).trans (List.Perm.swap a b tl))

theorem sortLe_perm (le : α → α → Bool) (l : List α) : (sortLe le l).Perm l := by
  induction l with
  | nil => exact List.Perm.refl _
  | cons a tl ih =>
    exact (insertLe_perm le a (sortLe le tl)).trans (ih.cons a)

theorem insertLe_pairwise (le : α → α → Bool)
    (htot : ∀ a b, le a b = true ∨ le b a = true)
    (htrans : ∀ a b c, le a b = true → le b c = true → le a c = true)
    (a : α) (l : List α) (h : l.Pairwise (fun x y => le x y = true)) :
    (insertLe le a l).Pairwise (fun x y => le x y = true) := by
  induction l with
  | nil => simp [insertLe]
  | cons b tl ih =>
    simp only [insertLe]
    rcases List.pairwise_cons.mp h with ⟨hb, htl⟩
    by_cases hab : le a b = true
    · rw [if_pos hab]
      refine List.pairwise_cons.mpr ⟨?_, h⟩
      intro x hx
      rcases List.mem_cons.mp hx with hx | hx
      · subst hx; exact hab
      · exact htrans a b x hab (hb x hx)
    · rw [if_neg hab]
      refine List.pairwise_cons.mpr ⟨?_, ih htl⟩
      intro x hx
      have hx2 := (insertLe_perm le a tl).mem_iff.mp hx
      rcases List.mem_cons.mp hx2 with hx3 | hx3
      · subst hx3
        rcases htot x b with h1 | h1
        · exact absurd h1 hab
        · exact h1
      · exact hb x hx3

theorem sortLe_pairwise (le : α → α → Bool)
    (htot : ∀ a b, le a b = true ∨ le b a = true)
    (htrans : ∀ a b c, le a b = true → le b c = true → le a c = true)
    (l : List α) : (sortLe le l).Pairwise (fun x y => le x y = true) := by
  induction l with
  | nil => simp [sortLe]
  | cons a tl ih => exact insertLe_pairwise le htot htrans a _ ih

theorem insertLe_map {α β : Type} (le : α → α → Bool) (le2 : β → β → Bool)
    (f : α → β) (hf : ∀ a b, le2 (f a) (f b) = le a b) (a : α) (l : List α) :
    insertLe le2 (f a) (l.map f) = (insertLe le a l).map f := by
  induction l with
  | nil => rfl
  | cons b tl ih =>
    simp only [List.map_cons, insertLe, hf]
    by_cases h : le a b = true
    · simp [h]
    · simp [h, ih]

theorem sortLe_map {α β : Type} (le : α → α → Bool) (le2 : β → β → Bool)
    (f : α → β) (hf : ∀ a b, le2 (f a) (f b) = le a b) (l : List α) :
    sortLe le2 (l.map f) = (sortLe le l).map f := by
  induction l with
  | nil => rfl
  | cons a tl ih => simp only [List.map_cons, sortLe, ih, insertLe_map le le2 f hf]

/-- A list that is already sorted strictly (pairwise by an antisymmetric
relation implied by the comparator plus distinctness) is recovered
unchanged by any sorted permutation: the sorted permutation of a list is
unique once ties are impossible. -/
theorem eq_of_perm_of_pairwise_strict {α : Type} {r : α → α → Prop}
    (hanti : ∀ a b, r a b → r b a → False)
    {l₁ l₂ : List α} (hp : l₁.Perm l₂)
    (h1 : l₁.Pairwise r) (h2 : l₂.Pairwise r) : l₁ = l₂ := by
  haveI : IsAntisymm α r := ⟨fun a b hab hba => absurd (hanti a b hab hba) not_false⟩
  exact List.eq_of_perm_of_sorted hp h1 h2

/-! ### Decimal digits (the JSON rendering of integers) -/

/-- Least-significant-first decimal digits, driven by explicit fuel so that
the definition is structural and kernel-reducible. -/
def toDigitsRev : Nat → Nat → List Nat
  | 0, _ => []
  | f + 1, n => if n = 0 then [] else n % 10 :: toDigitsRev f (n / 10)

theorem toDigitsRev_eq_digits (f n : Nat) (h : n ≤ f) :
    toDigitsRev f n = Nat.digits 10 n := by
  induction f generalizing n with
  | zero =>
    have : n = 0 := by omega
    subst this
    simp [toDigitsRev]
  | succ f ih =>
    by_cases hn : n = 0
    · subst hn; simp [toDigitsRev]
    · rw [toDigitsRev, if_neg hn, Nat.digits_def' (by norm_num : (1:Nat) < 10)
        (Nat.pos_of_ne_zero hn), ih (n / 10) (by omega)]

/-- The most-significant-first code units of the decimal rendering of a
natural number, exactly as produced by the platform JSON serializer for a
nonnegative integer. -/
def natToUnits (n : Nat) : List Nat :=
  if n = 0 then [0x30] else ((toDigitsRev n n).reverse).map (· + 0x30)

/-- Code units of the decimal rendering of an integer (JSONed number). -/
def intUnits (n : Int) : List Nat :=
  if n < 0 then 0x2d :: natToUnits n.natAbs else natToUnits n.toNat

/-- Numeric value of a most-significant-first run of decimal digit units. -/
def natFromUnits (ds : List Nat) : Nat :=
  ds.foldl (fun a u => a * 10 + (u - 0x30)) 0

theorem foldl_decimal_reverse (L : List Nat) (a : Nat) :
    (L.reverse).foldl (fun a d => a * 10 + d) a =
      a * 10 ^ L.length + Nat.ofDigits 10 L := by
  induction L generalizing a with
  | nil => simp
  | cons d tl ih =>
    simp only [List.reverse_cons, List.foldl_append, List.foldl_cons, List.foldl_nil,
      List.length_cons, Nat.ofDigits_cons, ih]
    ring

theorem toDigitsRev_lt_ten (f n : Nat) : ∀ d ∈ toDigitsRev f n, d < 10 := by
  induction f generalizing n with
  | zero => intro d hd; simp [toDigitsRev] at hd
  | succ f ih =>
    intro d hd
    by_cases hn : n = 0
    · subst hn; simp [toDigitsRev] at hd
    · rw [toDigitsRev, if_neg hn] at hd
      rcases List.mem_cons.mp hd with h | h
      · subst h; omega
      · exact ih (n / 10) d h

theorem natFromUnits_natToUnits (n : Nat) : natFromUnits (natToUnits n) = n := by
  by_cases hn : n = 0
  · subst hn; rfl
  · unfold natToUnits natFromUnits
    rw [if_neg hn, List.foldl_map]
    simp only [Nat.add_sub_cancel]
    rw [foldl_decimal_reverse, toDigitsRev_eq_digits n n (le_refl n)]
    simpa using Nat.ofDigits_digits 10 n

theorem natToUnits_digits (n : Nat) : ∀ c ∈ natToUnits n, 0x30 ≤ c ∧ c ≤ 0x39 := by
  intro c hc
  unfold natToUnits at hc
  by_cases hn : n = 0
  · simp [hn] at hc; omega
  · rw [if_neg hn] at hc
    rcases List.mem_map.mp hc with ⟨d, hd, hdc⟩
    have := toDigitsRev_lt_ten n n d (List.mem_reverse.mp hd)
    omega

theorem natToUnits_ne_nil (n : Nat) : natToUnits n ≠ [] := by
  unfold natToUnits
  by_cases hn : n = 0
  · simp [hn]
  · rw [if_neg hn]
    cases n with
    | zero => exact absurd rfl hn
    | succ m =>
      rw [toDigitsRev, if_neg hn]
      simp

/-! ### The JSON value model

JavaScript strings are lists of UTF-16 code units; object fields are kept
as an association list in property-insertion order.  JSON numbers are
modelled as integers (see the header note). -/

inductive JsonValue where
  | null
  | bool (b : Bool)
  | num (n : Int)
  | str (s : List Nat)
  | arr (elems : List JsonValue)
  | obj (fields : List (List Nat × JsonValue))

/-- JS: typeof v === "object" && v !== null (arrays and objects). -/
def objectLike : JsonValue → Bool
  | .arr _ => true
  | .obj _ => true
  | _ => false

mutual
/-- Node-count measure used to bound the parser fuel. -/
def jsize : JsonValue → Nat
  | .arr es => 1 + jsizeElems es
  | .obj fs => 1 + jsizeFields fs
  | _ => 1

def jsizeElems : List JsonValue → Nat
  | [] => 0
  | e :: tl => jsize e + 1 + jsizeElems tl

def jsizeFields : List (List Nat × JsonValue) → Nat
  | [] => 0
  | p :: tl => jsize p.2 + 1 + jsizeFields tl
end

/-! ### JavaScript own-property enumeration order

A JS object enumerates its own properties with array-index keys first, in
ascending numeric order, followed by the remaining string keys in
insertion order.  An array-index key is the canonical decimal string of an
integer n with 0 ≤ n < 2^32 - 1. -/

/-- Array-index test: the canonical decimal representation of some
n < 2^32 - 1.  Canonicity is expressed by a round trip through the decimal
printer. -/
def isArrayIndexKey (k : List Nat) : Option Nat :=
  if k = natToUnits (natFromUnits k) ∧ natFromUnits k < 4294967295 then
    some (natFromUnits k)
  else none

theorem isArrayIndexKey_inj {k₁ k₂ : List Nat} {n : Nat}
    (h1 : isArrayIndexKey k₁ = some n) (h2 : isArrayIndexKey k₂ = some n) :
    k₁ = k₂ := by
  unfold isArrayIndexKey at h1 h2
  split at h1 <;> rename_i c1
  · split at h2 <;> rename_i c2
    · rw [c1.1, c2.1]
      have e1 := Option.some.inj h1
      have e2 := Option.some.inj h2
      rw [e1, e2]
    · exact absurd h2 (by simp)
  · exact absurd h1 (by simp)

/-- Key-only comparator used for sorting the index keys numerically. -/
def isIdxP {α : Type} (p : List Nat × α) : Bool := (isArrayIndexKey p.1).isSome

def idxNum {α : Type} (p : List Nat × α) : Nat := (isArrayIndexKey p.1).getD 0

def numLeB {α : Type} (p q : List Nat × α) : Bool := decide (idxNum p ≤ idxNum q)

/-- Key comparator modelling the default Array.prototype.sort on key
strings (UTF-16 code-unit lexicographic order). -/
def keyLeB {α : Type} (p q : List Nat × α) : Bool := cuLe p.1 q.1

/-- JS own-property enumeration order applied to an insertion-order field
list: array-index keys first, numerically ascending, then the rest in
insertion order. -/
def jsOrder {α : Type} (l : List (List Nat × α)) : List (List Nat × α) :=
  sortLe numLeB (l.filter isIdxP) ++ l.filter (fun p => !isIdxP p)

/-- Key sort used by canonicalJSONString: Object.keys(...).sort(). -/
def sortPairs {α : Type} (l : List (List Nat × α)) : List (List Nat × α) :=
  sortLe keyLeB l

/-- Distinct keys: the invariant every real JS object satisfies. -/
def NodupKeys {α : Type} (l : List (List Nat × α)) : Prop :=
  (l.map Prod.fst).Nodup

theorem jsOrder_perm {α : Type} (l : List (List Nat × α)) : (jsOrder l).Perm l := by
  unfold jsOrder
  exact ((sortLe_perm numLeB _).append (List.Perm.refl _)).trans
    (List.filter_append_perm _ l)

theorem sortPairs_perm {α : Type} (l : List (List Nat × α)) :
    (sortPairs l).Perm l := sortLe_perm keyLeB l

theorem numLeB_total {α : Type} (p q : List Nat × α) :
    numLeB p q = true ∨ numLeB q p = true := by
  unfold numLeB
  rcases Nat.le_total (idxNum p) (idxNum q) with h | h
  · left; exact decide_eq_true h
  · right; exact decide_eq_true h

theorem numLeB_trans {α : Type} (p q r : List Nat × α)
    (h1 : numLeB p q = true) (h2 : numLeB q r = true) : numLeB p r = true := by
  unfold numLeB at *
  exact decide_eq_true (Nat.le_trans (of_decide_eq_true h1) (of_decide_eq_true h2))

theorem keyLeB_total {α : Type} (p q : List Nat × α) :
    keyLeB p q = true ∨ keyLeB q p = true := cuLe_total p.1 q.1

theorem keyLeB_trans {α : Type} (p q r : List Nat × α)
    (h1 : keyLeB p q = true) (h2 : keyLeB q r = true) : keyLeB p r = true :=
  cuLe_trans h1 h2

/-- Pairwise distinctness of keys, extracted from NodupKeys. -/
theorem pairwise_key_ne {α : Type} {l : List (List Nat × α)} (h : NodupKeys l) :
    l.Pairwise (fun p q => p.1 ≠ q.1) := by
  unfold NodupKeys List.Nodup at h
  rw [List.pairwise_map] at h
  exact h

/-- Filtering by the index-key test commutes with a value-only map. -/
theorem filter_isIdx_map {α β : Type} (g : α → β) (l : List (List Nat × α)) :
    (l.map (fun q => (q.1, g q.2))).filter isIdxP =
      (l.filter isIdxP).map (fun q => (q.1, g q.2)) := by
  induction l with
  | nil => rfl
  | cons a tl ih =>
    simp only [List.map_cons, List.filter_cons]
    have : isIdxP ((a.1, g a.2)) = isIdxP a := rfl
    rw [this]
    by_cases h : isIdxP a = true
    · simp [h, ih]
    · simp only [h, Bool.false_eq_true, if_false]
      exact ih

theorem filter_notIdx_map {α β : Type} (g : α → β) (l : List (List Nat × α)) :
    (l.map (fun q => (q.1, g q.2))).filter (fun p => !isIdxP p) =
      (l.filter (fun p => !isIdxP p)).map (fun q => (q.1, g q.2)) := by
  induction l with
  | nil => rfl
  | cons a tl ih =>
    simp only [List.map_cons, List.filter_cons]
    have : (!isIdxP ((a.1, g a.2))) = !isIdxP a := rfl
    rw [this]
    by_cases h : (!isIdxP a) = true
    · simp [h, ih]
    · simp only [h, Bool.false_eq_true, if_false]
      exact ih

/-- jsOrder commutes with any value-only map. -/
theorem jsOrder_map {α β : Type} (g : α → β) (l : List (List Nat × α)) :
    jsOrder (l.map (fun q => (q.1, g q.2))) =
      (jsOrder l).map (fun q => (q.1, g q.2)) := by
  unfold jsOrder
  rw [filter_isIdx_map, filter_notIdx_map, List.map_append,
    sortLe_map numLeB numLeB (fun q => (q.1, g q.2)) (fun a b => rfl)]

/-- sortPairs commutes with any value-only map. -/
theorem sortPairs_map {α β : Type} (g : α → β) (l : List (List Nat × α)) :
    sortPairs (l.map (fun q => (q.1, g q.2))) =
      (sortPairs l).map (fun q => (q.1, g q.2)) := by
  unfold sortPairs
  rw [sortLe_map keyLeB keyLeB (fun q => (q.1, g q.2)) (fun a b => rfl)]

theorem pairwise_and {α : Type} {R S : α → α → Prop} {l : List α}
    (h1 : l.Pairwise R) (h2 : l.Pairwise S) :
    l.Pairwise (fun a b => R a b ∧ S a b) := by
  induction l with
  | nil => exact List.Pairwise.nil
  | cons a tl ih =>
    rcases List.pairwise_cons.mp h1 with ⟨ha, h1t⟩
    rcases List.pairwise_cons.mp h2 with ⟨hb, h2t⟩
    exact List.pairwise_cons.mpr ⟨fun x hx => ⟨ha x hx, hb x hx⟩, ih h1t h2t⟩

theorem pairwise_of_mem_prop {α : Type} {P : α → Prop} {l : List α}
    (h : ∀ x ∈ l, P x) : l.Pairwise (fun a b => P a ∧ P b) := by
  induction l with
  | nil => exact List.Pairwise.nil
  | cons a tl ih =>
    refine List.pairwise_cons.mpr ⟨?_, ih fun x hx => h x (List.mem_cons_of_mem a hx)⟩
    intro x hx
    exact ⟨h a (List.mem_cons_self a tl), h x (List.mem_cons_of_mem a hx)⟩

theorem nodupKeys_of_perm {α : Type} {l₁ l₂ : List (List Nat × α)}
    (hp : l₁.Perm l₂) (h : NodupKeys l₁) : NodupKeys l₂ :=
  ((hp.map Prod.fst).nodup_iff).mp h

/-- Sorting by key is insensitive to the input order once keys are
distinct: there is only one sorted arrangement. -/
theorem sortPairs_eq_of_perm {α : Type} {l₁ l₂ : List (List Nat × α)}
    (hp : l₁.Perm l₂) (hnd : NodupKeys l₁) : sortPairs l₁ = sortPairs l₂ := by
  have hperm : (sortPairs l₁).Perm (sortPairs l₂) :=
    (sortPairs_perm l₁).trans (hp.trans (sortPairs_perm l₂).symm)
  have mk : ∀ (l : List (List Nat × α)), NodupKeys l →
      (sortPairs l).Pairwise (fun p q => cuLe p.1 q.1 = true ∧ p.1 ≠ q.1) := by
    intro l hl
    have hs := sortLe_pairwise keyLeB keyLeB_total keyLeB_trans l
    have hn := pairwise_key_ne (nodupKeys_of_perm (sortPairs_perm l).symm hl)
    exact pairwise_and hs hn
  exact eq_of_perm_of_pairwise_strict
    (fun a b h1 h2 => h1.2 (cuLe_antisymm h1.1 h2.1))
    hperm (mk l₁ hnd) (mk l₂ (nodupKeys_of_perm hp hnd))

/-- Keys of a filtered sublist stay distinct. -/
theorem nodupKeys_filter {α : Type} (p : List Nat × α → Bool)
    {l : List (List Nat × α)} (h : NodupKeys l) : NodupKeys (l.filter p) := by
  unfold NodupKeys at *
  exact List.Nodup.sublist (List.Sublist.map Prod.fst (List.filter_sublist l)) h

/-- The strict numeric order on index-keyed pairs used to show there is
exactly one numerically sorted arrangement of the index keys. -/
theorem jsOrder_strict_aux {α : Type} {l m : List (List Nat × α)}
    (hperm : l.Perm m)
    (hidx : ∀ x ∈ m, isIdxP x = true) (hnd : NodupKeys m)
    (h1 : l.Pairwise (fun p q => numLeB p q = true))
    (h2 : m.Pairwise (fun p q => numLeB p q = true)) : l = m := by
  have hidx2 : ∀ x ∈ l, isIdxP x = true := fun x hx => hidx x (hperm.mem_iff.mp hx)
  have hnd2 : NodupKeys l := nodupKeys_of_perm hperm.symm hnd
  have mk : ∀ (t : List (List Nat × α)), (∀ x ∈ t, isIdxP x = true) → NodupKeys t →
      t.Pairwise (fun p q => numLeB p q = true) →
      t.Pairwise (fun p q =>
        (isIdxP p = true ∧ isIdxP q = true) ∧ numLeB p q = true ∧ p.1 ≠ q.1) := by
    intro t hi hn hs
    exact pairwise_and (pairwise_of_mem_prop hi) (pairwise_and hs (pairwise_key_ne hn))
  refine eq_of_perm_of_pairwise_strict ?_ hperm (mk l hidx2 hnd2 h1) (mk m hidx hnd h2)
  intro a b hab hba
  rcases hab with ⟨⟨hia, hib⟩, hle1, hne⟩
  rcases hba with ⟨_, hle2, _⟩
  rcases Option.isSome_iff_exists.mp hia with ⟨na, hna⟩
  rcases Option.isSome_iff_exists.mp hib with ⟨nb, hnb⟩
  have e1 : idxNum a = na := by simp [idxNum, hna]
  have e2 : idxNum b = nb := by simp [idxNum, hnb]
  have : na = nb := by
    have l1 := of_decide_eq_true hle1
    have l2 := of_decide_eq_true hle2
    omega
  subst this
  exact hne (isArrayIndexKey_inj hna hnb)

/-- JS enumeration order is idempotent on lists with distinct keys. -/
theorem jsOrder_idem {α : Type} (l : List (List Nat × α)) (hnd : NodupKeys l) :
    jsOrder (jsOrder l) = jsOrder l := by
  unfold jsOrder
  set A := sortLe numLeB (l.filter isIdxP) with hA
  set B := l.filter (fun p => !isIdxP p) with hB
  have hAidx : ∀ x ∈ A, isIdxP x = true := by
    intro x hx
    have := (sortLe_perm numLeB (l.filter isIdxP)).mem_iff.mp hx
    exact List.of_mem_filter this
  have hBidx : ∀ x ∈ B, isIdxP x = false := by
    intro x hx
    have := List.of_mem_filter hx
    simpa using this
  have hfA : (A ++ B).filter isIdxP = A := by
    rw [List.filter_append]
    rw [List.filter_eq_self.mpr hAidx]
    have : B.filter isIdxP = [] := by
      rw [List.filter_eq_nil_iff]
      intro a ha
      simp [hBidx a ha]
    rw [this, List.append_nil]
  have hfB : (A ++ B).filter (fun p => !isIdxP p) = B := by
    rw [List.filter_append]
    have h1 : A.filter (fun p => !isIdxP p) = [] := by
      rw [List.filter_eq_nil_iff]
      intro a ha
      simp [hAidx a ha]
    have h2 : B.filter (fun p => !isIdxP p) = B := by
      rw [List.filter_eq_self]
      intro a ha
      simp [hBidx a ha]
    rw [h1, h2, List.nil_append]
  rw [hfA, hfB]
  have hndA : NodupKeys A :=
    nodupKeys_of_perm (sortLe_perm numLeB _).symm (nodupKeys_filter _ hnd)
  have : sortLe numLeB A = A := by
    refine jsOrder_strict_aux (sortLe_perm numLeB A) hAidx hndA ?_ ?_
    · exact sortLe_pairwise numLeB numLeB_total numLeB_trans A
    · rw [hA]
      exact sortLe_pairwise numLeB numLeB_total numLeB_trans _
  rw [this]

/-! ### String escaping (the platform JSON serializer, modelled from the
spec: JSON.stringify quotes a string, escaping the quote, the backslash,
the named control characters, other control characters as a lowercase
four-digit hex escape, and unpaired surrogates likewise; a well-matched
surrogate pair is emitted verbatim). -/

def isHighSur (u : Nat) : Bool := 0xd800 ≤ u && u ≤ 0xdbff

def isLowSur (u : Nat) : Bool := 0xdc00 ≤ u && u ≤ 0xdfff

def toHexDigit (d : Nat) : Nat := if d < 10 then 0x30 + d else 0x57 + d

def hexUnits4 (u : Nat) : List Nat :=
  [toHexDigit (u / 4096 % 16), toHexDigit (u / 256 % 16),
   toHexDigit (u / 16 % 16), toHexDigit (u % 16)]

def hexDigitVal (c : Nat) : Option Nat :=
  if 0x30 ≤ c ∧ c ≤ 0x39 then some (c - 0x30)
  else if 0x61 ≤ c ∧ c ≤ 0x66 then some (c - 0x57)
  else if 0x41 ≤ c ∧ c ≤ 0x46 then some (c - 0x37)
  else none

/-- Escape of one code unit outside a well-matched surrogate pair. -/
def escUnit (u : Nat) : List Nat :=
  if u = 0x22 then [0x5c, 0x22]
  else if u = 0x5c then [0x5c, 0x5c]
  else if u = 0x08 then [0x5c, 0x62]
  else if u = 0x09 then [0x5c, 0x74]
  else if u = 0x0a then [0x5c, 0x6e]
  else if u = 0x0c then [0x5c, 0x66]
  else if u = 0x0d then [0x5c, 0x72]
  else if u < 0x20 || isHighSur u || isLowSur u then 0x5c :: 0x75 :: hexUnits4 u
  else [u]

def escUnits : List Nat → List Nat
  | [] => []
  | [u] => escUnit u
  | u :: v :: rest =>
    if isHighSur u && isLowSur v then u :: v :: escUnits rest
    else escUnit u ++ escUnits (v :: rest)

/-- A JSON string literal: quote, escaped body, quote. -/
def quoteStr (s : List Nat) : List Nat := 0x22 :: escUnits s ++ [0x22]

/-- Comma-joined rendering of already-stringified object members. -/
def joinFields : List (List Nat × List Nat) → List Nat
  | [] => []
  | [(k, s)] => quoteStr k ++ 0x3a :: s
  | (k, s) :: tl => quoteStr k ++ 0x3a :: (s ++ 0x2c :: joinFields tl)

mutual
/-- Model of the platform JSON serializer (JSON.stringify) on a JsonValue:
renders primitives with JSON literal syntax, arrays in element order, and
objects in JS own-property enumeration order (jsOrder). -/
def jsStringify : JsonValue → List Nat
  | .null => [0x6e, 0x75, 0x6c, 0x6c]
  | .bool true => [0x74, 0x72, 0x75, 0x65]
  | .bool false => [0x66, 0x61, 0x6c, 0x73, 0x65]
  | .num n => intUnits n
  | .str s => quoteStr s
  | .arr es => 0x5b :: (jsElems es ++ [0x5d])
  | .obj fs => 0x7b :: (joinFields (jsOrder (strFields fs)) ++ [0x7d])

def jsElems : List JsonValue → List Nat
  | [] => []
  | [e] => jsStringify e
  | e :: tl => jsStringify e ++ 0x2c :: jsElems tl

def strFields : List (List Nat × JsonValue) → List (List Nat × List Nat)
  | [] => []
  | (k, v) :: tl => (k, jsStringify v) :: strFields tl
end

theorem strFields_eq_map (fs : List (List Nat × JsonValue)) :
    strFields fs = fs.map (fun q => (q.1, jsStringify q.2)) := by
  induction fs with
  | nil => rfl
  | cons p tl ih => cases p with | mk k v => simp [strFields, ih]

mutual
/-- The JsonValue denoted by the text JSON.stringify produces: object
fields land in enumeration (jsOrder) order, values recursively. -/
def jsNormalize : JsonValue → JsonValue
  | .arr es => .arr (normElems es)
  | .obj fs => .obj (jsOrder (normFields fs))
  | v => v

def normElems : List JsonValue → List JsonValue
  | [] => []
  | e :: tl => jsNormalize e :: normElems tl

def normFields : List (List Nat × JsonValue) → List (List Nat × JsonValue)
  | [] => []
  | (k, v) :: tl => (k, jsNormalize v) :: normFields tl
end

theorem normElems_eq_map (es : List JsonValue) :
    normElems es = es.map jsNormalize := by
  induction es with
  | nil => rfl
  | cons e tl ih => simp [normElems, ih]

theorem normFields_eq_map (fs : List (List Nat × JsonValue)) :
    normFields fs = fs.map (fun q => (q.1, jsNormalize q.2)) := by
  induction fs with
  | nil => rfl
  | cons p tl ih => cases p with | mk k v => simp [normFields, ih]

mutual
/-- The canonical value: object fields recursively canonicalized, sorted
by key and arranged in enumeration order, arrays in element order.
canonicalJSONString is proved below to render exactly this value. -/
def canonValue : JsonValue → JsonValue
  | .arr es => .arr (canonElems es)
  | .obj fs => .obj (jsOrder (sortPairs (canonFields fs)))
  | v => v

def canonElems : List JsonValue → List JsonValue
  | [] => []
  | e :: tl => canonValue e :: canonElems tl

def canonFields : List (List Nat × JsonValue) → List (List Nat × JsonValue)
  | [] => []
  | (k, v) :: tl => (k, canonValue v) :: canonFields tl
end

theorem canonElems_eq_map (es : List JsonValue) :
    canonElems es = es.map canonValue := by
  induction es with
  | nil => rfl
  | cons e tl ih => simp [canonElems, ih]

theorem canonFields_eq_map (fs : List (List Nat × JsonValue)) :
    canonFields fs = fs.map (fun q => (q.1, canonValue q.2)) := by
  induction fs with
  | nil => rfl
  | cons p tl ih => cases p with | mk k v => simp [canonFields, ih]

/-! ### The platform JSON parser

Modelled from the spec: JSON.parse — whitespace-insensitive
recursive-descent over the JSON grammar, building objects by JS property
definition (first occurrence fixes the position, the last occurrence of a
duplicate key wins the value).  Numbers are parsed as integers, matching
the numeric fragment of the JsonValue model.  Recursion is driven by a
fuel parameter so the definition is structural; jsonParse supplies fuel
larger than any possible nesting depth of its input. -/

def skipWs : List Nat → List Nat
  | [] => []
  | c :: tl => if isWsJ c then skipWs tl else c :: tl

def escCharVal (e : Nat) : Option Nat :=
  if e = 0x22 then some 0x22
  else if e = 0x5c then some 0x5c
  else if e = 0x2f then some 0x2f
  else if e = 0x62 then some 0x08
  else if e = 0x66 then some 0x0c
  else if e = 0x6e then some 0x0a
  else if e = 0x72 then some 0x0d
  else if e = 0x74 then some 0x09
  else none

/-- Prepend a decoded unit to a string-parse result. -/
def consUnit (u : Nat) : Option (List Nat × List Nat) → Option (List Nat × List Nat)
  | some (s, r) => some (u :: s, r)
  | none => none

mutual
def parseStringBody : List Nat → Option (List Nat × List Nat)
  | [] => none
  | c :: rest =>
    if c = 0x22 then some ([], rest)
    else if c = 0x5c then parseStringEsc rest
    else if c < 0x20 then none
    else consUnit c (parseStringBody rest)

def parseStringEsc : List Nat → Option (List Nat × List Nat)
  | [] => none
  | e :: rest2 =>
    if e = 0x75 then
      match rest2 with
      | h1 :: h2 :: h3 :: h4 :: rest3 =>
        match hexDigitVal h1, hexDigitVal h2, hexDigitVal h3, hexDigitVal h4 with
        | some d1, some d2, some d3, some d4 =>
          consUnit (((d1 * 16 + d2) * 16 + d3) * 16 + d4) (parseStringBody rest3)
        | _, _, _, _ => none
      | _ => none
    else
      match escCharVal e with
      | some u => consUnit u (parseStringBody rest2)
      | none => none
end

def parseNat (l : List Nat) : Option (Nat × List Nat) :=
  let ds := l.takeWhile isDigitB
  if ds = [] then none else some (natFromUnits ds, l.dropWhile isDigitB)

def parseNumber : List Nat → Option (JsonValue × List Nat)
  | [] => none
  | c :: tl =>
    if c = 0x2d then
      match parseNat tl with
      | some (m, r) => some (.num (-(m : Int)), r)
      | none => none
    else
      match parseNat (c :: tl) with
      | some (m, r) => some (.num (m : Int), r)
      | none => none

def lookupKey (k : List Nat) : List (List Nat × JsonValue) → Option JsonValue
  | [] => none
  | p :: tl => if p.1 = k then some p.2 else lookupKey k tl

def removeKey (k : List Nat) : List (List Nat × JsonValue) → List (List Nat × JsonValue)
  | [] => []
  | p :: tl => if p.1 = k then removeKey k tl else p :: removeKey k tl

/-- JS property definition combined over the members parsed after it: the
first occurrence of a key fixes its position, the last fixes its value. -/
def defineProp (k : List Nat) (v : JsonValue) (tl : List (List Nat × JsonValue)) :
    List (List Nat × JsonValue) :=
  match lookupKey k tl with
  | some v2 => (k, v2) :: removeKey k tl
  | none => (k, v) :: tl

mutual
def parseValueF : Nat → List Nat → Option (JsonValue × List Nat)
  | 0, _ => none
  | n + 1, input =>
    match skipWs input with
    | [] => none
    | c :: rest =>
      if c = 0x6e then
        match rest with
        | 0x75 :: 0x6c :: 0x6c :: r => some (.null, r)
        | _ => none
      else if c = 0x74 then
        match rest with
        | 0x72 :: 0x75 :: 0x65 :: r => some (.bool true, r)
        | _ => none
      else if c = 0x66 then
        match rest with
        | 0x61 :: 0x6c :: 0x73 :: 0x65 :: r => some (.bool false, r)
        | _ => none
      else if c = 0x22 then
        match parseStringBody rest with
        | some (s, r) => some (.str s, r)
        | none => none
      else if c = 0x5b then
        match skipWs rest with
        | [] => none
        | c2 :: rest2 =>
          if c2 = 0x5d then some (.arr [], rest2)
          else
            match parseElemsF n (c2 :: rest2) with
            | some (es, r) => some (.arr es, r)
            | none => none
      else if c = 0x7b then
        match skipWs rest with
        | [] => none
        | c2 :: rest2 =>
          if c2 = 0x7d then some (.obj [], rest2)
          else
            match parseFieldsF n (c2 :: rest2) with
            | some (fs, r) => some (.obj fs, r)
            | none => none
      else if c = 0x2d || isDigitB c then parseNumber (c :: rest)
      else none

def parseElemsF : Nat → List Nat → Option (List JsonValue × List Nat)
  | 0, _ => none
  | n + 1, input =>
    match parseValueF n input with
    | none => none
    | some (v, r) =>
      match skipWs r with
      | [] => none
      | c2 :: r2 =>
        if c2 = 0x2c then
          match parseElemsF n r2 with
          | some (es, r3) => some (v :: es, r3)
          | none => none
        else if c2 = 0x5d then some ([v], r2)
        else none

def parseFieldsF : Nat → List Nat → Option (List (List Nat × JsonValue) × List Nat)
  | 0, _ => none
  | n + 1, input =>
    match skipWs input with
    | [] => none
    | c :: rest =>
      if c = 0x22 then
        match parseStringBody rest with
        | none => none
        | some (k, r1) =>
          match skipWs r1 with
          | [] => none
          | c2 :: r2 =>
            if c2 = 0x3a then
              match parseValueF n r2 with
              | none => none
              | some (v, r3) =>
                match skipWs r3 with
                | [] => none
                | c3 :: r4 =>
                  if c3 = 0x2c then
                    match parseFieldsF n r4 with
                    | some (fs, r5) => some (defineProp k v fs, r5)
                    | none => none
                  else if c3 = 0x7d then some ([(k, v)], r4)
                  else none
            else none
      else none
end

/-- JSON.parse: parse one value, allow trailing whitespace only. -/
def jsonParse (s : List Nat) : Option JsonValue :=
  match parseValueF (s.length + 1) s with
  | some (v, r) => if skipWs r = [] then some v else none
  | none => none

/-! ### canonicalJSONString (src/verifier.js lines 55-77)

The source, for arrays, JSON.stringifies the element list after replacing
every object-like element by JSON.parse of its own canonical string; for
objects it enumerates Object.keys (JS enumeration order), sorts them with
the default sort (UTF-16 code-unit order), rebuilds an object in sorted
key order whose object-like values are likewise parse-of-canonical, and
JSON.stringifies it; primitives go straight to JSON.stringify.  Sorting
touches only keys, so canonicalizing the values before sorting (done here
so the recursion is structural) renders the same text; the enumeration
reorder that JSON.stringify applies to the rebuilt object is part of
jsStringify. -/

mutual
def canonicalJSONString : JsonValue → List Nat
  | .arr es => jsStringify (.arr (canonItems es))
  | .obj fs => jsStringify (.obj (sortPairs (jsOrder (canonFieldsC fs))))
  | v => jsStringify v

def canonItems : List JsonValue → List JsonValue
  | [] => []
  | e :: tl =>
    (if objectLike e then (jsonParse (canonicalJSONString e)).getD e else e) :: canonItems tl

def canonFieldsC : List (List Nat × JsonValue) → List (List Nat × JsonValue)
  | [] => []
  | (k, v) :: tl =>
    (k, if objectLike v then (jsonParse (canonicalJSONString v)).getD v else v) :: canonFieldsC tl
end

/-! ### Well-formedness: recursively distinct object keys

Every value a real JS program can hold satisfies this (JS objects cannot
carry duplicate keys); it is the hypothesis under which canonicalization
behaves like the source. -/

instance {α : Type} (l : List (List Nat × α)) : Decidable (NodupKeys l) := by
  unfold NodupKeys
  infer_instance

mutual
def WFb : JsonValue → Bool
  | .arr es => WFbElems es
  | .obj fs => decide (NodupKeys fs) && WFbFields fs
  | _ => true

def WFbElems : List JsonValue → Bool
  | [] => true
  | e :: tl => WFb e && WFbElems tl

def WFbFields : List (List Nat × JsonValue) → Bool
  | [] => true
  | p :: tl => WFb p.2 && WFbFields tl
end

theorem WFbElems_iff (es : List JsonValue) :
    WFbElems es = true ↔ ∀ e ∈ es, WFb e = true := by
  induction es with
  | nil => simp [WFbElems]
  | cons e tl ih => simp [WFbElems, ih]

theorem WFbFields_iff (fs : List (List Nat × JsonValue)) :
    WFbFields fs = true ↔ ∀ p ∈ fs, WFb p.2 = true := by
  induction fs with
  | nil => simp [WFbFields]
  | cons p tl ih => simp [WFbFields, ih]

theorem WFbFields_of_perm {fs gs : List (List Nat × JsonValue)}
    (hp : fs.Perm gs) (h : WFbFields fs = true) : WFbFields gs = true := by
  rw [WFbFields_iff] at *
  intro p hpm
  exact h p (hp.mem_iff.mpr hpm)

theorem jsizeElems_mem {e : JsonValue} {es : List JsonValue} (h : e ∈ es) :
    jsize e + 1 ≤ jsizeElems es := by
  induction es with
  | nil => cases h
  | cons a tl ih =>
    rw [jsizeElems]
    rcases List.mem_cons.mp h with h1 | h1
    · subst h1; omega
    · have := ih h1; omega

theorem jsizeFields_mem {p : List Nat × JsonValue} {fs : List (List Nat × JsonValue)}
    (h : p ∈ fs) : jsize p.2 + 1 ≤ jsizeFields fs := by
  induction fs with
  | nil => cases h
  | cons a tl ih =>
    rw [jsizeFields]
    rcases List.mem_cons.mp h with h1 | h1
    · subst h1; omega
    · have := ih h1; omega

theorem jsizeFields_eq_sum (fs : List (List Nat × JsonValue)) :
    jsizeFields fs = (fs.map (fun p => jsize p.2 + 1)).sum := by
  induction fs with
  | nil => rfl
  | cons p tl ih => simp [jsizeFields, ih]

theorem jsizeFields_of_perm {fs gs : List (List Nat × JsonValue)}
    (hp : fs.Perm gs) : jsizeFields fs = jsizeFields gs := by
  rw [jsizeFields_eq_sum, jsizeFields_eq_sum]
  exact (hp.map _).sum_eq

/-! ### Helper facts about the text produced by jsStringify -/

theorem skipWs_not_ws {c : Nat} (l : List Nat) (h : isWsJ c = false) :
    skipWs (c :: l) = c :: l := by simp [skipWs, h]

theorem natToUnits_cons (n : Nat) :
    ∃ c t, natToUnits n = c :: t ∧ 0x30 ≤ c ∧ c ≤ 0x39 := by
  cases h : natToUnits n with
  | nil => exact absurd h (natToUnits_ne_nil n)
  | cons c t =>
    have hc := natToUnits_digits n c (by rw [h]; exact List.mem_cons_self c t)
    exact ⟨c, t, rfl, hc.1, hc.2⟩

/-- The first code unit of any stringified value is never whitespace, so
the parser's leading skipWs is the identity there. -/
theorem skipWs_stringify (v : JsonValue) (r : List Nat) :
    skipWs (jsStringify v ++ r) = jsStringify v ++ r := by
  cases v with
  | null => rw [jsStringify]; exact skipWs_not_ws _ (by decide)
  | bool b =>
    cases b <;> rw [jsStringify] <;> exact skipWs_not_ws _ (by decide)
  | num n =>
    rw [jsStringify]
    unfold intUnits
    by_cases h : n < 0
    · rw [if_pos h]; exact skipWs_not_ws _ (by decide)
    · rw [if_neg h]
      rcases natToUnits_cons n.toNat with ⟨c, t, hct, hc1, hc2⟩
      rw [hct]
      exact skipWs_not_ws _ (by simp [isWsJ]; omega)
  | str s => rw [jsStringify]; unfold quoteStr; exact skipWs_not_ws _ (by decide)
  | arr es => rw [jsStringify]; exact skipWs_not_ws _ (by decide)
  | obj fs => rw [jsStringify]; exact skipWs_not_ws _ (by decide)

theorem takeWhile_all_append {p : Nat → Bool} {A B : List Nat}
    (hA : ∀ x ∈ A, p x = true) (hB : ∀ d, B.head? = some d → p d = false) :
    (A ++ B).takeWhile p = A ∧ (A ++ B).dropWhile p = B := by
  induction A with
  | nil =>
    simp only [List.nil_append]
    cases B with
    | nil => simp
    | cons d t =>
      have := hB d rfl
      simp [List.takeWhile, List.dropWhile, this]
  | cons a A ih =>
    have ha := hA a (List.mem_cons_self a A)
    have ih2 := ih (fun x hx => hA x (List.mem_cons_of_mem a hx))
    constructor
    · simp [List.takeWhile_cons, ha, ih2.1]
    · simp [List.dropWhile_cons, ha, ih2.2]

theorem parseNat_append (n : Nat) (rest : List Nat)
    (hrest : ∀ d, rest.head? = some d → isDigitB d = false) :
    parseNat (natToUnits n ++ rest) = some (n, rest) := by
  have hA : ∀ x ∈ natToUnits n, isDigitB x = true := by
    intro x hx
    have := natToUnits_digits n x hx
    simp [isDigitB]; omega
  rcases takeWhile_all_append hA hrest with ⟨h1, h2⟩
  unfold parseNat
  rw [h1, h2, if_neg (natToUnits_ne_nil n), natFromUnits_natToUnits]

theorem parseNumber_intUnits (n : Int) (rest : List Nat)
    (hrest : ∀ d, rest.head? = some d → isDigitB d = false) :
    parseNumber (intUnits n ++ rest) = some (.num n, rest) := by
  unfold intUnits
  by_cases h : n < 0
  · rw [if_pos h]
    rw [List.cons_append, parseNumber, if_pos rfl, parseNat_append n.natAbs rest hrest]
    show some (JsonValue.num (-((n.natAbs : Nat) : Int)), rest) = some (JsonValue.num n, rest)
    have : -((n.natAbs : Nat) : Int) = n := by omega
    rw [this]
  · rw [if_neg h]
    rcases natToUnits_cons n.toNat with ⟨c, t, hct, hc1, hc2⟩
    rw [hct, List.cons_append, parseNumber, if_neg (by omega), ← List.cons_append, ← hct,
      parseNat_append n.toNat rest hrest]
    show some (JsonValue.num ((n.toNat : Nat) : Int), rest) = some (JsonValue.num n, rest)
    have : ((n.toNat : Nat) : Int) = n := by omega
    rw [this]

theorem hexDigitVal_toHexDigit {d : Nat} (h : d < 16) :
    hexDigitVal (toHexDigit d) = some d := by
  interval_cases d <;> rfl

theorem parseStringBody_escUnit (u : Nat) (T s r : List Nat)
    (hT : parseStringBody T = some (s, r)) :
    parseStringBody (escUnit u ++ T) = some (u :: s, r) := by
  unfold escUnit
  split_ifs with h1 h2 h3 h4 h5 h6 h7 h8
  · subst h1; simp [parseStringBody, parseStringEsc, escCharVal, consUnit, hT]
  · subst h2; simp [parseStringBody, parseStringEsc, escCharVal, consUnit, hT]
  · subst h3; simp [parseStringBody, parseStringEsc, escCharVal, consUnit, hT]
  · subst h4; simp [parseStringBody, parseStringEsc, escCharVal, consUnit, hT]
  · subst h5; simp [parseStringBody, parseStringEsc, escCharVal, consUnit, hT]
  · subst h6; simp [parseStringBody, parseStringEsc, escCharVal, consUnit, hT]
  · subst h7; simp [parseStringBody, parseStringEsc, escCharVal, consUnit, hT]
  · have e1 := hexDigitVal_toHexDigit (d := u / 4096 % 16) (by omega)
    have e2 := hexDigitVal_toHexDigit (d := u / 256 % 16) (by omega)
    have e3 := hexDigitVal_toHexDigit (d := u / 16 % 16) (by omega)
    have e4 := hexDigitVal_toHexDigit (d := u % 16) (by omega)
    have hu : u < 0x10000 := by
      simp only [Bool.or_eq_true, decide_eq_true_eq, isHighSur, isLowSur,
        Bool.and_eq_true] at h8
      rcases h8 with h | h | h
      · omega
      · omega
      · omega
    simp only [hexUnits4, List.cons_append]
    simp [parseStringBody, parseStringEsc, e1, e2, e3, e4, consUnit, hT]
    omega
  · have hlt : ¬ u < 0x20 := by
      simp only [Bool.or_eq_true, decide_eq_true_eq] at h8
      push_neg at h8
      have := h8.1.1
      omega
    simp [parseStringBody, h1, h2, hlt, consUnit, hT]

/-- The serializer's string escaping round-trips through the parser. -/
theorem parseStringBody_escUnits (s rest : List Nat) :
    parseStringBody (escUnits s ++ 0x22 :: rest) = some (s, rest) := by
  induction s using escUnits.induct with
  | case1 => simp [escUnits, parseStringBody]
  | case2 u =>
    rw [escUnits]
    exact parseStringBody_escUnit u _ [] rest (by simp [parseStringBody])
  | case3 u v rest2 h ih =>
    have h2 := h
    simp only [isHighSur, isLowSur, Bool.and_eq_true, decide_eq_true_eq] at h2
    rcases h2 with ⟨⟨hu1, hu2⟩, hv1, hv2⟩
    have nu1 : ¬ u = 0x22 := by omega
    have nu2 : ¬ u = 0x5c := by omega
    have nu3 : ¬ u < 0x20 := by omega
    have nv1 : ¬ v = 0x22 := by omega
    have nv2 : ¬ v = 0x5c := by omega
    have nv3 : ¬ v < 0x20 := by omega
    simp only [escUnits, if_pos h, List.cons_append]
    simp [parseStringBody, nu1, nu2, nu3, nv1, nv2, nv3, consUnit, ih]
  | case4 u v rest2 h ih =>
    rw [escUnits, if_neg h, List.append_assoc]
    exact parseStringBody_escUnit u _ _ _ ih

/-- Tail rendering of an element list after its first element. -/
def elsTail : List JsonValue → List Nat
  | [] => []
  | tl => 0x2c :: jsElems tl

theorem jsElems_cons (e : JsonValue) (tl : List JsonValue) :
    jsElems (e :: tl) = jsStringify e ++ elsTail tl := by
  cases tl with
  | nil => simp [jsElems, elsTail]
  | cons x xs => rfl

/-- Tail rendering of a member list after its first member. -/
def flsTail : List (List Nat × List Nat) → List Nat
  | [] => []
  | tl => 0x2c :: joinFields tl

theorem joinFields_cons (k s : List Nat) (tl : List (List Nat × List Nat)) :
    joinFields ((k, s) :: tl) = quoteStr k ++ 0x3a :: (s ++ flsTail tl) := by
  cases tl with
  | nil => simp [joinFields, flsTail]
  | cons x xs => rfl

theorem elsTail_cons (x : JsonValue) (xs : List JsonValue) :
    elsTail (x :: xs) = 0x2c :: jsElems (x :: xs) := rfl

theorem flsTail_cons (q : List Nat × List Nat) (tl : List (List Nat × List Nat)) :
    flsTail (q :: tl) = 0x2c :: joinFields (q :: tl) := rfl

/-- The leading code unit of a stringified value is never whitespace nor a
separator or closing bracket. -/
theorem jsStringify_head (v : JsonValue) :
    ∃ c t, jsStringify v = c :: t ∧ isWsJ c = false ∧
      c ≠ 0x5d ∧ c ≠ 0x7d ∧ c ≠ 0x2c ∧ c ≠ 0x3a := by
  cases v with
  | null => exact ⟨0x6e, _, rfl, by decide, by decide, by decide, by decide, by decide⟩
  | bool b =>
    cases b
    · exact ⟨0x66, _, rfl, by decide, by decide, by decide, by decide, by decide⟩
    · exact ⟨0x74, _, rfl, by decide, by decide, by decide, by decide, by decide⟩
  | num n =>
    show ∃ c t, intUnits n = c :: t ∧ _
    unfold intUnits
    by_cases h : n < 0
    · rw [if_pos h]
      exact ⟨0x2d, _, rfl, by decide, by decide, by decide, by decide, by decide⟩
    · rw [if_neg h]
      rcases natToUnits_cons n.toNat with ⟨c, t, hct, hc1, hc2⟩
      rw [hct]
      refine ⟨c, t, rfl, by simp [isWsJ]; omega, by omega, by omega, by omega, by omega⟩
  | str s => exact ⟨0x22, _, rfl, by decide, by decide, by decide, by decide, by decide⟩
  | arr es => exact ⟨0x5b, _, rfl, by decide, by decide, by decide, by decide, by decide⟩
  | obj fs => exact ⟨0x7b, _, rfl, by decide, by decide, by decide, by decide, by decide⟩

theorem noDigit_cons {c : Nat} (h : isDigitB c = false) (l : List Nat) :
    ∀ d, (c :: l).head? = some d → isDigitB d = false := by
  intro d hd
  simp only [List.head?_cons, Option.some.injEq] at hd
  subst hd
  exact h

theorem lookupKey_eq_none {k : List Nat} {l : List (List Nat × JsonValue)}
    (h : ∀ p ∈ l, p.1 ≠ k) : lookupKey k l = none := by
  induction l with
  | nil => rfl
  | cons p tl ih =>
    rw [lookupKey, if_neg (h p (List.mem_cons_self p tl))]
    exact ih fun q hq => h q (List.mem_cons_of_mem p hq)

theorem jsize_pos (v : JsonValue) : 1 ≤ jsize v := by
  cases v <;> simp [jsize]

theorem parseValueF_null (n : Nat) (rest : List Nat) :
    parseValueF (n + 1) (jsStringify .null ++ rest) = some (.null, rest) := by
  simp [jsStringify, parseValueF, skipWs, isWsJ]

theorem parseValueF_bool (n : Nat) (b : Bool) (rest : List Nat) :
    parseValueF (n + 1) (jsStringify (.bool b) ++ rest) = some (.bool b, rest) := by
  cases b <;> simp [jsStringify, parseValueF, skipWs, isWsJ]

theorem parseValueF_str (n : Nat) (s rest : List Nat) :
    parseValueF (n + 1) (jsStringify (.str s) ++ rest) = some (.str s, rest) := by
  have h : jsStringify (.str s) ++ rest = 0x22 :: (escUnits s ++ 0x22 :: rest) := by
    simp [jsStringify, quoteStr]
  rw [h, parseValueF, skipWs_not_ws _ (by decide)]
  simp [parseStringBody_escUnits s rest]

theorem parseValueF_num (n : Nat) (m : Int) (rest : List Nat)
    (hnd : ∀ d, rest.head? = some d → isDigitB d = false) :
    parseValueF (n + 1) (jsStringify (.num m) ++ rest) = some (.num m, rest) := by
  by_cases hm : m < 0
  · have h : jsStringify (.num m) ++ rest = 0x2d :: (natToUnits m.natAbs ++ rest) := by
      simp [jsStringify, intUnits, hm]
    rw [h, parseValueF, skipWs_not_ws _ (by decide)]
    have e : intUnits m ++ rest = 0x2d :: (natToUnits m.natAbs ++ rest) := by
      simp [intUnits, hm]
    have hp := parseNumber_intUnits m rest hnd
    rw [e] at hp
    simp [hp]
  · rcases natToUnits_cons m.toNat with ⟨c, t, hct, hc1, hc2⟩
    have h : jsStringify (.num m) ++ rest = c :: (t ++ rest) := by
      simp [jsStringify, intUnits, hm, hct]
    rw [h, parseValueF, skipWs_not_ws _ (by simp [isWsJ]; omega)]
    have e : intUnits m ++ rest = c :: (t ++ rest) := by
      simp [intUnits, hm, hct]
    have hp := parseNumber_intUnits m rest hnd
    rw [e] at hp
    have n1 : ¬ c = 0x6e := by omega
    have n2 : ¬ c = 0x74 := by omega
    have n3 : ¬ c = 0x66 := by omega
    have n4 : ¬ c = 0x22 := by omega
    have n5 : ¬ c = 0x5b := by omega
    have n6 : ¬ c = 0x7b := by omega
    have n7 : isDigitB c = true := by simp [isDigitB]; omega
    simp [n1, n2, n3, n4, n5, n6, n7, hp]

/-- The parser inverts the serializer: parsing stringified well-formed
values yields the value with object fields in enumeration order. -/
theorem parseRoundTrip : ∀ (n : Nat),
    (∀ (v : JsonValue) (rest : List Nat), WFb v = true → jsize v ≤ n →
      (∀ d, rest.head? = some d → isDigitB d = false) →
      parseValueF n (jsStringify v ++ rest) = some (jsNormalize v, rest)) ∧
    (∀ (es : List JsonValue) (rest : List Nat), es ≠ [] → WFbElems es = true →
      jsizeElems es ≤ n →
      parseElemsF n (jsElems es ++ 0x5d :: rest) = some (normElems es, rest)) ∧
    (∀ (gs : List (List Nat × JsonValue)) (rest : List Nat), gs ≠ [] →
      WFbFields gs = true → NodupKeys gs → jsizeFields gs ≤ n →
      parseFieldsF n (joinFields (strFields gs) ++ 0x7d :: rest) =
        some (normFields gs, rest)) := by
  intro n
  induction n with
  | zero =>
    refine ⟨?_, ?_, ?_⟩
    · intro v rest _ hsz _
      exfalso
      have := jsize_pos v
      omega
    · intro es rest hne _ hsz
      exfalso
      cases es with
      | nil => exact hne rfl
      | cons e tl =>
        rw [jsizeElems] at hsz
        have := jsize_pos e
        omega
    · intro gs rest hne _ _ hsz
      exfalso
      cases gs with
      | nil => exact hne rfl
      | cons p tl =>
        rw [jsizeFields] at hsz
        have := jsize_pos p.2
        omega
  | succ n ih =>
    obtain ⟨ihv, ihe, ihf⟩ := ih
    refine ⟨?_, ?_, ?_⟩
    · -- values
      intro v rest hwf hsz hnd
      cases v with
      | null => exact parseValueF_null n rest
      | bool b => exact parseValueF_bool n b rest
      | num m => exact parseValueF_num n m rest hnd
      | str s => exact parseValueF_str n s rest
      | arr es =>
        cases es with
        | nil =>
          show parseValueF (n + 1) ((0x5b :: ([] ++ [0x5d])) ++ rest) = _
          simp [parseValueF, skipWs, isWsJ, jsNormalize, normElems]
        | cons e tl =>
          have hwf2 : WFbElems (e :: tl) = true := by
            rw [WFb] at hwf; exact hwf
          have hsz2 : jsizeElems (e :: tl) ≤ n := by
            rw [jsize] at hsz; omega
          rcases jsStringify_head e with ⟨c0, t0, hct, hws, hd1, hd2, hd3, hd4⟩
          have htext : jsStringify (.arr (e :: tl)) ++ rest =
              0x5b :: (c0 :: (t0 ++ (elsTail tl ++ 0x5d :: rest))) := by
            rw [jsStringify, jsElems_cons, hct]
            simp
          rw [htext, parseValueF, skipWs_not_ws _ (by decide)]
          have hback : c0 :: (t0 ++ (elsTail tl ++ 0x5d :: rest)) =
              jsElems (e :: tl) ++ 0x5d :: rest := by
            rw [jsElems_cons, hct]
            simp
          simp only [show ¬ (0x5b : Nat) = 0x6e from by decide,
            show ¬ (0x5b : Nat) = 0x74 from by decide,
            show ¬ (0x5b : Nat) = 0x66 from by decide,
            show ¬ (0x5b : Nat) = 0x22 from by decide,
            if_neg, if_pos, if_true, if_false]
          rw [skipWs_not_ws _ hws]
          simp [hd1, hback, ihe (e :: tl) rest (by simp) hwf2 hsz2, jsNormalize]
      | obj fs =>
        cases fs with
        | nil =>
          show parseValueF (n + 1) ((0x7b :: (joinFields (jsOrder (strFields [])) ++ [0x7d])) ++ rest) = _
          simp [strFields, jsOrder, sortLe, joinFields, parseValueF, skipWs, isWsJ,
            jsNormalize, normFields, List.filter]
        | cons p tl =>
          have hnodup : NodupKeys (p :: tl) := by
            rw [WFb, Bool.and_eq_true] at hwf
            exact of_decide_eq_true hwf.1
          have hwff : WFbFields (p :: tl) = true := by
            rw [WFb, Bool.and_eq_true] at hwf
            exact hwf.2
          have hszf : jsizeFields (p :: tl) ≤ n := by
            rw [jsize] at hsz; omega
          set fs := p :: tl with hfs
          have hperm : (jsOrder fs).Perm fs := jsOrder_perm fs
          have hcomm : jsOrder (strFields fs) = strFields (jsOrder fs) := by
            rw [strFields_eq_map, strFields_eq_map, jsOrder_map]
          have hne : jsOrder fs ≠ [] := by
            intro hcon
            rw [hcon] at hperm
            have h0 := hperm.symm.eq_nil
            rw [hfs] at h0
            exact (List.cons_ne_nil p tl) h0
          rcases List.exists_cons_of_ne_nil hne with ⟨q, gtl, hq⟩
          have hjoin : joinFields (strFields (jsOrder fs)) =
              0x22 :: (escUnits q.1 ++ 0x22 :: (0x3a :: (jsStringify q.2 ++ flsTail (strFields gtl)))) := by
            rw [hq]
            show joinFields (strFields ((q.1, q.2) :: gtl)) = _
            rw [strFields, joinFields_cons, quoteStr]
            simp
          have htext : jsStringify (.obj fs) ++ rest =
              0x7b :: (joinFields (strFields (jsOrder fs)) ++ 0x7d :: rest) := by
            rw [jsStringify, hcomm]
            simp
          have hnorm : normFields (jsOrder fs) = jsOrder (normFields fs) := by
            rw [normFields_eq_map, normFields_eq_map, jsOrder_map]
          have hihf := ihf (jsOrder fs) rest hne (WFbFields_of_perm hperm.symm hwff)
            (nodupKeys_of_perm hperm.symm hnodup)
            (by rw [jsizeFields_of_perm hperm]; exact hszf)
          rw [hjoin] at hihf
          simp only [List.append_assoc, List.cons_append] at hihf
          rw [htext, parseValueF, skipWs_not_ws _ (by decide)]
          simp only [show ¬ (0x7b : Nat) = 0x6e from by decide,
            show ¬ (0x7b : Nat) = 0x74 from by decide,
            show ¬ (0x7b : Nat) = 0x66 from by decide,
            show ¬ (0x7b : Nat) = 0x22 from by decide,
            show ¬ (0x7b : Nat) = 0x5b from by decide,
            if_neg, if_pos, if_true, if_false]
          simp [hjoin, hihf, skipWs, isWsJ, hnorm, jsNormalize]
    · -- element lists
      intro es rest hne hwf hsz
      cases es with
      | nil => exact absurd rfl hne
      | cons e tl =>
        rw [WFbElems, Bool.and_eq_true] at hwf
        rw [jsizeElems] at hsz
        cases tl with
        | nil =>
          have htext : jsElems [e] ++ 0x5d :: rest = jsStringify e ++ 0x5d :: rest := by
            rw [jsElems_cons, elsTail]
            simp
          rw [htext, parseElemsF,
            ihv e (0x5d :: rest) hwf.1 (by omega) (noDigit_cons (by decide) rest)]
          simp [skipWs, isWsJ, normElems]
        | cons e2 tl2 =>
          have htext : jsElems (e :: e2 :: tl2) ++ 0x5d :: rest =
              jsStringify e ++ (0x2c :: (jsElems (e2 :: tl2) ++ 0x5d :: rest)) := by
            rw [jsElems_cons, elsTail_cons]
            simp
          rw [htext, parseElemsF,
            ihv e _ hwf.1 (by omega) (noDigit_cons (by decide) _)]
          simp [skipWs, isWsJ, normElems,
            ihe (e2 :: tl2) rest (List.cons_ne_nil e2 tl2) hwf.2
              (by have := jsize_pos e; omega)]
    · -- field lists
      intro gs rest hne hwf hnodup hsz
      cases gs with
      | nil => exact absurd rfl hne
      | cons p tl =>
        obtain ⟨k, v⟩ := p
        rw [WFbFields, Bool.and_eq_true] at hwf
        rw [jsizeFields] at hsz
        have hszv : jsize v + 1 + jsizeFields tl ≤ n + 1 := hsz
        have hknotin : (k : List Nat) ∉ tl.map Prod.fst := by
          unfold NodupKeys at hnodup
          rw [List.map_cons, List.nodup_cons] at hnodup
          exact hnodup.1
        have hlook : lookupKey k (normFields tl) = none := by
          apply lookupKey_eq_none
          intro q hq
          rw [normFields_eq_map] at hq
          rcases List.mem_map.mp hq with ⟨q0, hq0, hq0e⟩
          intro hcon
          apply hknotin
          rw [← hq0e] at hcon
          simp only at hcon
          rw [← hcon]
          exact List.mem_map_of_mem Prod.fst hq0
        have htext : joinFields (strFields ((k, v) :: tl)) ++ 0x7d :: rest =
            0x22 :: (escUnits k ++ 0x22 :: (0x3a :: (jsStringify v ++
              (flsTail (strFields tl) ++ 0x7d :: rest)))) := by
          rw [strFields, joinFields_cons, quoteStr]
          simp
        cases tl with
        | nil =>
          have htail : flsTail (strFields ([] : List (List Nat × JsonValue))) = [] := rfl
          have hv := ihv v (0x7d :: rest) hwf.1 (by omega) (noDigit_cons (by decide) rest)
          rw [htext, parseFieldsF]
          simp [htail, parseStringBody_escUnits, skipWs, isWsJ, hv, normFields]
        | cons p2 tl2 =>
          have htail : flsTail (strFields (p2 :: tl2)) =
              0x2c :: joinFields (strFields (p2 :: tl2)) := by
            obtain ⟨k2, v2⟩ := p2
            rw [strFields, flsTail_cons]
          have hv := ihv v (0x2c :: (joinFields (strFields (p2 :: tl2)) ++ 0x7d :: rest))
            hwf.1 (by omega) (noDigit_cons (by decide) _)
          have hf := ihf (p2 :: tl2) rest (List.cons_ne_nil p2 tl2) hwf.2
            (by
              unfold NodupKeys at hnodup ⊢
              rw [List.map_cons, List.nodup_cons] at hnodup
              exact hnodup.2)
            (by omega)
          rw [htext, parseFieldsF]
          simp [htail, parseStringBody_escUnits, skipWs, isWsJ, hv, hf,
            defineProp, hlook, normFields]
          rw [← show normFields (p2 :: tl2) = (p2.1, jsNormalize p2.2) :: normFields tl2 from by
              obtain ⟨a, b⟩ := p2
              rfl,
            hlook]

/-- The node-count measure is bounded by the rendered length, so the fuel
jsonParse supplies (input length + 1) always suffices. -/
theorem sizeLen : ∀ (N : Nat),
    (∀ v, jsize v ≤ N → jsize v ≤ (jsStringify v).length) ∧
    (∀ es, jsizeElems es ≤ N → jsizeElems es ≤ (jsElems es).length + 1) ∧
    (∀ gs, jsizeFields gs ≤ N →
      jsizeFields gs ≤ (joinFields (strFields gs)).length + 1) := by
  intro N
  induction N with
  | zero =>
    refine ⟨?_, ?_, ?_⟩
    · intro v hsz
      have := jsize_pos v
      omega
    · intro es hsz
      cases es with
      | nil => simp [jsizeElems]
      | cons e tl =>
        rw [jsizeElems] at hsz
        have := jsize_pos e
        omega
    · intro gs hsz
      cases gs with
      | nil => simp [jsizeFields]
      | cons p tl =>
        rw [jsizeFields] at hsz
        have := jsize_pos p.2
        omega
  | succ N ih =>
    obtain ⟨ihv, ihe, ihf⟩ := ih
    refine ⟨?_, ?_, ?_⟩
    · intro v hsz
      cases v with
      | null => simp [jsize, jsStringify]
      | bool b => cases b <;> simp [jsize, jsStringify]
      | num m =>
        rw [show jsize (.num m) = 1 from rfl]
        have h1 : (jsStringify (.num m)).length ≥ 1 := by
          rw [jsStringify]
          unfold intUnits
          by_cases hm : m < 0
          · rw [if_pos hm]; simp
          · rw [if_neg hm]
            rcases natToUnits_cons m.toNat with ⟨c, t, hct, _, _⟩
            rw [hct]
            simp
        omega
      | str s => simp [jsize, jsStringify, quoteStr]
      | arr es =>
        rw [jsize, jsStringify]
        have h2 : jsizeElems es ≤ N := by
          rw [jsize] at hsz
          omega
        have := ihe es h2
        simp only [List.length_cons, List.length_append, List.length_singleton]
        omega
      | obj fs =>
        have hcomm : jsOrder (strFields fs) = strFields (jsOrder fs) := by
          rw [strFields_eq_map, strFields_eq_map, jsOrder_map]
        have hszf : jsizeFields (jsOrder fs) ≤ N := by
          rw [jsizeFields_of_perm (jsOrder_perm fs)]
          rw [jsize] at hsz
          omega
        have h3 := ihf (jsOrder fs) hszf
        rw [jsizeFields_of_perm (jsOrder_perm fs)] at h3
        rw [jsize, jsStringify, hcomm]
        simp only [List.length_cons, List.length_append, List.length_singleton]
        omega
    · intro es hsz
      cases es with
      | nil => simp [jsizeElems]
      | cons e tl =>
        rw [jsizeElems] at hsz ⊢
        have h1 : jsize e ≤ N := by have := jsize_pos e; omega
        have hv := ihv e h1
        cases tl with
        | nil =>
          rw [show jsElems [e] = jsStringify e from rfl]
          rw [show jsizeElems ([] : List JsonValue) = 0 from rfl]
          omega
        | cons e2 tl2 =>
          have h2 : jsizeElems (e2 :: tl2) ≤ N := by
            have := jsize_pos e
            omega
          have he := ihe (e2 :: tl2) h2
          rw [jsElems_cons, elsTail_cons]
          simp only [List.length_append, List.length_cons]
          omega
    · intro gs hsz
      cases gs with
      | nil => simp [jsizeFields]
      | cons p tl =>
        obtain ⟨k, v⟩ := p
        rw [show jsizeFields ((k, v) :: tl) = jsize v + 1 + jsizeFields tl from rfl] at hsz ⊢
        have h1 : jsize v ≤ N := by omega
        have hv := ihv v h1
        cases tl with
        | nil =>
          rw [show strFields [(k, v)] = [(k, jsStringify v)] from rfl,
            show joinFields [(k, jsStringify v)] = quoteStr k ++ 0x3a :: jsStringify v from rfl,
            show jsizeFields ([] : List (List Nat × JsonValue)) = 0 from rfl]
          simp only [List.length_append, List.length_cons, quoteStr]
          omega
        | cons p2 tl2 =>
          have h2 : jsizeFields (p2 :: tl2) ≤ N := by
            have := jsize_pos v
            omega
          have hf := ihf (p2 :: tl2) h2
          rw [show strFields ((k, v) :: p2 :: tl2) =
            (k, jsStringify v) :: strFields (p2 :: tl2) from rfl]
          rw [joinFields_cons]
          have hne : strFields (p2 :: tl2) ≠ [] := by
            obtain ⟨k2, v2⟩ := p2
            rw [show strFields ((k2, v2) :: tl2) =
              (k2, jsStringify v2) :: strFields tl2 from rfl]
            exact List.cons_ne_nil _ _
          rcases List.exists_cons_of_ne_nil hne with ⟨q, qtl, hq⟩
          rw [hq, flsTail_cons, ← hq]
          simp only [List.length_append, List.length_cons, quoteStr]
          omega

/-- JSON.parse of JSON.stringify output recovers the value up to
enumeration order of object fields. -/
theorem jsonParse_stringify (v : JsonValue) (h : WFb v = true) :
    jsonParse (jsStringify v) = some (jsNormalize v) := by
  unfold jsonParse
  have hb : jsize v ≤ (jsStringify v).length + 1 := by
    have := (sizeLen (jsize v)).1 v (le_refl _)
    omega
  have hrt := (parseRoundTrip ((jsStringify v).length + 1)).1 v [] h hb
    (by intro d hd; simp at hd)
  rw [List.append_nil] at hrt
  rw [hrt]
  simp [skipWs]

theorem listMapCongr {α β : Type} {f g : α → β} {l : List α}
    (h : ∀ a ∈ l, f a = g a) : l.map f = l.map g := by
  induction l with
  | nil => rfl
  | cons a tl ih =>
    simp only [List.map_cons]
    rw [h a (List.mem_cons_self a tl), ih fun x hx => h x (List.mem_cons_of_mem a hx)]

theorem listMapId {α : Type} {f : α → α} {l : List α}
    (h : ∀ a ∈ l, f a = a) : l.map f = l := by
  induction l with
  | nil => rfl
  | cons a tl ih =>
    simp only [List.map_cons]
    rw [h a (List.mem_cons_self a tl), ih fun x hx => h x (List.mem_cons_of_mem a hx)]

theorem keys_map_val {α β : Type} (g : α → β) (l : List (List Nat × α)) :
    ((l.map (fun p => (p.1, g p.2))).map Prod.fst) = l.map Prod.fst := by
  rw [List.map_map]
  exact listMapCongr fun a _ => rfl

theorem nodupKeys_map_val {α β : Type} (g : α → β) {l : List (List Nat × α)}
    (h : NodupKeys l) : NodupKeys (l.map (fun p => (p.1, g p.2))) := by
  unfold NodupKeys at *
  rw [keys_map_val]
  exact h

theorem canonItems_eq_map (es : List JsonValue) :
    canonItems es = es.map
      (fun e => if objectLike e then (jsonParse (canonicalJSONString e)).getD e else e) := by
  induction es with
  | nil => rfl
  | cons e tl ih => simp only [canonItems, List.map_cons, ih]

theorem canonFieldsC_eq_map (fs : List (List Nat × JsonValue)) :
    canonFieldsC fs = fs.map (fun p =>
      (p.1, if objectLike p.2 then (jsonParse (canonicalJSONString p.2)).getD p.2 else p.2)) := by
  induction fs with
  | nil => rfl
  | cons p tl ih =>
    cases p with
    | mk k v => simp only [canonFieldsC, List.map_cons, ih]

theorem strFields_sortPairs (l : List (List Nat × JsonValue)) :
    strFields (sortPairs l) = sortPairs (strFields l) := by
  rw [strFields_eq_map, strFields_eq_map]
  exact (sortPairs_map _ l).symm

theorem strFields_jsOrder (l : List (List Nat × JsonValue)) :
    strFields (jsOrder l) = jsOrder (strFields l) := by
  rw [strFields_eq_map, strFields_eq_map]
  exact (jsOrder_map _ l).symm

/-- Properties of canonValue under well-formedness: it preserves
well-formedness, is a fixed point of jsNormalize (so the canonical text
parses back to exactly the canonical value), is idempotent, and
canonicalJSONString renders precisely jsStringify of it. -/
theorem canonCluster : ∀ (N : Nat) (v : JsonValue), jsize v ≤ N → WFb v = true →
    WFb (canonValue v) = true ∧
    jsNormalize (canonValue v) = canonValue v ∧
    canonValue (canonValue v) = canonValue v ∧
    canonicalJSONString v = jsStringify (canonValue v) := by
  intro N
  induction N with
  | zero =>
    intro v hsz _
    exact absurd hsz (by have := jsize_pos v; omega)
  | succ N ih =>
    have hitem : ∀ e, jsize e ≤ N → WFb e = true →
        (if objectLike e then (jsonParse (canonicalJSONString e)).getD e else e) =
          canonValue e := by
      intro e hsz hwf
      by_cases ho : objectLike e = true
      · rw [if_pos ho]
        obtain ⟨hA, hB, _, hD⟩ := ih e hsz hwf
        rw [hD, jsonParse_stringify _ hA, hB]
        rfl
      · rw [if_neg ho]
        cases e with
        | arr es => exact absurd rfl ho
        | obj fs => exact absurd rfl ho
        | null => rfl
        | bool b => rfl
        | num n => rfl
        | str s => rfl
    intro v hsz hwf
    cases v with
    | null => exact ⟨rfl, rfl, rfl, rfl⟩
    | bool b => exact ⟨rfl, rfl, rfl, rfl⟩
    | num n => exact ⟨rfl, rfl, rfl, rfl⟩
    | str s => exact ⟨rfl, rfl, rfl, rfl⟩
    | arr es =>
      have hwfe : ∀ e ∈ es, WFb e = true := by
        rw [WFb] at hwf
        exact (WFbElems_iff es).mp hwf
      have hsze : ∀ e ∈ es, jsize e ≤ N := by
        intro e he
        have := jsizeElems_mem he
        rw [jsize] at hsz
        omega
      refine ⟨?_, ?_, ?_, ?_⟩
      · rw [show canonValue (.arr es) = .arr (canonElems es) from rfl, WFb,
          canonElems_eq_map, WFbElems_iff]
        intro e2 he2
        rcases List.mem_map.mp he2 with ⟨e, he, rfl⟩
        exact (ih e (hsze e he) (hwfe e he)).1
      · rw [show canonValue (.arr es) = .arr (canonElems es) from rfl,
          show jsNormalize (.arr (canonElems es)) = .arr (normElems (canonElems es)) from rfl,
          normElems_eq_map, canonElems_eq_map, List.map_map]
        congr 1
        exact listMapCongr fun e he => (ih e (hsze e he) (hwfe e he)).2.1
      · rw [show canonValue (.arr es) = .arr (canonElems es) from rfl,
          show canonValue (.arr (canonElems es)) = .arr (canonElems (canonElems es)) from rfl,
          canonElems_eq_map, canonElems_eq_map, List.map_map]
        congr 1
        exact listMapCongr fun e he => (ih e (hsze e he) (hwfe e he)).2.2.1
      · rw [show canonicalJSONString (.arr es) = jsStringify (.arr (canonItems es)) from rfl,
          show canonValue (.arr es) = .arr (canonElems es) from rfl]
        congr 2
        rw [canonItems_eq_map, canonElems_eq_map]
        exact listMapCongr fun e he => hitem e (hsze e he) (hwfe e he)
    | obj fs =>
      rw [WFb, Bool.and_eq_true] at hwf
      have hnd : NodupKeys fs := of_decide_eq_true hwf.1
      have hwfv : ∀ p ∈ fs, WFb p.2 = true := (WFbFields_iff fs).mp hwf.2
      have hszv : ∀ p ∈ fs, jsize p.2 ≤ N := by
        intro p hp
        have := jsizeFields_mem hp
        rw [jsize] at hsz
        omega
      have hCF : canonFields fs = fs.map (fun p => (p.1, canonValue p.2)) :=
        canonFields_eq_map fs
      have hndCF : NodupKeys (canonFields fs) := by
        rw [hCF]
        exact nodupKeys_map_val _ hnd
      have hpermG : (jsOrder (sortPairs (canonFields fs))).Perm (canonFields fs) :=
        (jsOrder_perm _).trans (sortPairs_perm _)
      have hndSP : NodupKeys (sortPairs (canonFields fs)) :=
        nodupKeys_of_perm (sortPairs_perm _).symm hndCF
      have hndG : NodupKeys (jsOrder (sortPairs (canonFields fs))) :=
        nodupKeys_of_perm hpermG.symm hndCF
      have hvalsG : ∀ q ∈ jsOrder (sortPairs (canonFields fs)),
          WFb q.2 = true ∧ jsNormalize q.2 = q.2 ∧ canonValue q.2 = q.2 := by
        intro q hq
        have hq2 : q ∈ canonFields fs := hpermG.mem_iff.mp hq
        rw [hCF] at hq2
        rcases List.mem_map.mp hq2 with ⟨p, hp, rfl⟩
        obtain ⟨a, b, c, _⟩ := ih p.2 (hszv p hp) (hwfv p hp)
        exact ⟨a, b, c⟩
      refine ⟨?_, ?_, ?_, ?_⟩
      · rw [show canonValue (.obj fs) = .obj (jsOrder (sortPairs (canonFields fs))) from rfl,
          WFb, Bool.and_eq_true]
        refine ⟨decide_eq_true hndG, ?_⟩
        rw [WFbFields_iff]
        intro p hp
        exact (hvalsG p hp).1
      · rw [show canonValue (.obj fs) = .obj (jsOrder (sortPairs (canonFields fs))) from rfl,
          show jsNormalize (.obj (jsOrder (sortPairs (canonFields fs)))) =
            .obj (jsOrder (normFields (jsOrder (sortPairs (canonFields fs))))) from rfl]
        have h1 : normFields (jsOrder (sortPairs (canonFields fs))) =
            jsOrder (sortPairs (canonFields fs)) := by
          rw [normFields_eq_map]
          apply listMapId
          intro q hq
          rw [(hvalsG q hq).2.1]
        rw [h1, jsOrder_idem _ hndSP]
      · rw [show canonValue (.obj fs) = .obj (jsOrder (sortPairs (canonFields fs))) from rfl,
          show canonValue (.obj (jsOrder (sortPairs (canonFields fs)))) =
            .obj (jsOrder (sortPairs (canonFields (jsOrder (sortPairs (canonFields fs)))))) from rfl]
        have h1 : canonFields (jsOrder (sortPairs (canonFields fs))) =
            jsOrder (sortPairs (canonFields fs)) := by
          rw [canonFields_eq_map]
          apply listMapId
          intro q hq
          rw [(hvalsG q hq).2.2]
        rw [h1]
        have h2 : sortPairs (jsOrder (sortPairs (canonFields fs))) =
            sortPairs (canonFields fs) := by
          exact (sortPairs_eq_of_perm (jsOrder_perm _) hndG).trans
            (sortPairs_eq_of_perm (sortPairs_perm _) hndSP)
        rw [h2]
      · rw [show canonicalJSONString (.obj fs) =
            jsStringify (.obj (sortPairs (jsOrder (canonFieldsC fs)))) from rfl,
          show canonValue (.obj fs) = .obj (jsOrder (sortPairs (canonFields fs))) from rfl]
        have hCFC : canonFieldsC fs = canonFields fs := by
          rw [canonFieldsC_eq_map, hCF]
          exact listMapCongr fun p hp => by rw [hitem p.2 (hszv p hp) (hwfv p hp)]
        rw [hCFC]
        show (0x7b : Nat) :: (joinFields (jsOrder (strFields (sortPairs (jsOrder (canonFields fs))))) ++ [0x7d]) =
          0x7b :: (joinFields (jsOrder (strFields (jsOrder (sortPairs (canonFields fs))))) ++ [0x7d])
        have hndM : NodupKeys (strFields (canonFields fs)) := by
          rw [strFields_eq_map]
          exact nodupKeys_map_val _ hndCF
        rw [strFields_sortPairs, strFields_jsOrder, strFields_jsOrder, strFields_sortPairs]
        have hL : sortPairs (jsOrder (strFields (canonFields fs))) =
            sortPairs (strFields (canonFields fs)) :=
          sortPairs_eq_of_perm (jsOrder_perm _)
            (nodupKeys_of_perm (jsOrder_perm _).symm hndM)
        have hR : jsOrder (jsOrder (sortPairs (strFields (canonFields fs)))) =
            jsOrder (sortPairs (strFields (canonFields fs))) :=
          jsOrder_idem _ (nodupKeys_of_perm (sortPairs_perm _).symm hndM)
        rw [hL, hR]

theorem canonicalJSONString_eq (v : JsonValue) (h : WFb v = true) :
    canonicalJSONString v = jsStringify (canonValue v) :=
  (canonCluster (jsize v) v (le_refl _) h).2.2.2

theorem canonValue_WFb (v : JsonValue) (h : WFb v = true) :
    WFb (canonValue v) = true :=
  (canonCluster (jsize v) v (le_refl _) h).1

theorem jsNormalize_canonValue (v : JsonValue) (h : WFb v = true) :
    jsNormalize (canonValue v) = canonValue v :=
  (canonCluster (jsize v) v (le_refl _) h).2.1

theorem canonValue_idem (v : JsonValue) (h : WFb v = true) :
    canonValue (canonValue v) = canonValue v :=
  (canonCluster (jsize v) v (le_refl _) h).2.2.1

/-- Parsing the canonical text yields exactly the canonical value. -/
theorem jsonParse_canonical (v : JsonValue) (h : WFb v = true) :
    jsonParse (canonicalJSONString v) = some (canonValue v) := by
  rw [canonicalJSONString_eq v h, jsonParse_stringify _ (canonValue_WFb v h),
    jsNormalize_canonValue v h]

/-- The canonical text of the canonical value is the canonical text. -/
theorem canonical_canonValue (v : JsonValue) (h : WFb v = true) :
    canonicalJSONString (canonValue v) = canonicalJSONString v := by
  rw [canonicalJSONString_eq _ (canonValue_WFb v h), canonValue_idem v h,
    canonicalJSONString_eq v h]

/-- The order in which canonicalJSONString emits the keys of an object:
array-index keys first in ascending numeric order, then the remaining
keys in ascending UTF-16 code-unit order. -/
def canonKeyOrd (a b : List Nat) : Prop :=
  match isArrayIndexKey a, isArrayIndexKey b with
  | some m, some n => m < n
  | some _, none => True
  | none, some _ => False
  | none, none => cuLe a b = true ∧ a ≠ b

theorem canonKeys_perm (l : List (List Nat × JsonValue)) :
    ((jsOrder (sortPairs l)).map Prod.fst).Perm (l.map Prod.fst) :=
  ((jsOrder_perm _).trans (sortPairs_perm l)).map Prod.fst

theorem canonKeys_pairwise (l : List (List Nat × JsonValue)) (hnd : NodupKeys l) :
    ((jsOrder (sortPairs l)).map Prod.fst).Pairwise canonKeyOrd := by
  rw [List.pairwise_map]
  have hndS : NodupKeys (sortPairs l) :=
    nodupKeys_of_perm (sortPairs_perm l).symm hnd
  have hS : (sortPairs l).Pairwise (fun p q => keyLeB p q = true) :=
    sortLe_pairwise keyLeB keyLeB_total keyLeB_trans l
  unfold jsOrder
  set A := sortLe numLeB ((sortPairs l).filter isIdxP) with hA
  set B := (sortPairs l).filter (fun p => !isIdxP p) with hB
  have hAidx : ∀ x ∈ A, isIdxP x = true := by
    intro x hx
    have := (sortLe_perm numLeB _).mem_iff.mp hx
    exact List.of_mem_filter this
  have hBidx : ∀ x ∈ B, isIdxP x = false := by
    intro x hx
    have := List.of_mem_filter hx
    simpa using this
  rw [List.pairwise_append]
  refine ⟨?_, ?_, ?_⟩
  · -- index keys, numerically strictly ascending
    have hsorted : A.Pairwise (fun p q => numLeB p q = true) :=
      sortLe_pairwise numLeB numLeB_total numLeB_trans _
    have hndA : NodupKeys A :=
      nodupKeys_of_perm (sortLe_perm numLeB _).symm (nodupKeys_filter _ hndS)
    have hcomb := pairwise_and (pairwise_of_mem_prop hAidx)
      (pairwise_and hsorted (pairwise_key_ne hndA))
    refine hcomb.imp ?_
    intro p q h
    rcases h with ⟨⟨hip, hiq⟩, hle, hne⟩
    rcases Option.isSome_iff_exists.mp hip with ⟨m, hm⟩
    rcases Option.isSome_iff_exists.mp hiq with ⟨n, hn⟩
    unfold canonKeyOrd
    rw [hm, hn]
    have e1 : idxNum p = m := by simp [idxNum, hm]
    have e2 : idxNum q = n := by simp [idxNum, hn]
    have hmn : m ≤ n := by
      have := of_decide_eq_true hle
      omega
    rcases Nat.lt_or_ge m n with h1 | h1
    · exact h1
    · exfalso
      have : m = n := by omega
      subst this
      exact hne (isArrayIndexKey_inj hm hn)
  · -- non-index keys, code-unit strictly ascending
    have hsorted : B.Pairwise (fun p q => keyLeB p q = true) :=
      List.Pairwise.sublist (List.filter_sublist _) hS
    have hndB : NodupKeys B := nodupKeys_filter _ hndS
    have hcomb := pairwise_and (pairwise_of_mem_prop hBidx)
      (pairwise_and hsorted (pairwise_key_ne hndB))
    refine hcomb.imp ?_
    intro p q h
    rcases h with ⟨⟨hip, hiq⟩, hle, hne⟩
    have hip2 : isArrayIndexKey p.1 = none := by
      unfold isIdxP at hip
      exact Option.not_isSome_iff_eq_none.mp (by simp [hip])
    have hiq2 : isArrayIndexKey q.1 = none := by
      unfold isIdxP at hiq
      exact Option.not_isSome_iff_eq_none.mp (by simp [hiq])
    unfold canonKeyOrd
    rw [hip2, hiq2]
    exact ⟨hle, hne⟩
  · -- every index key precedes every non-index key
    intro p hp q hq
    rcases Option.isSome_iff_exists.mp (hAidx p hp) with ⟨m, hm⟩
    have hiq2 : isArrayIndexKey q.1 = none := by
      have := hBidx q hq
      unfold isIdxP at this
      exact Option.not_isSome_iff_eq_none.mp (by simp [this])
    unfold canonKeyOrd
    rw [hm, hiq2]
    trivial

/-! ### PDF payload extraction (src/verifier.js, extractPayloadFromPdfFile)

The source walks the byte buffer by index; the embedding walks the suffix
of the byte list from the current position, which is the same traversal.
Errors are named after the messages the source throws. -/

inductive PdfError where
  | noPayloadFound
  | malformedPayload
  | unterminatedString
  | unsupportedFormat
  | notValidJson
deriving DecidableEq

deriving instance DecidableEq for Except

def isOctDigit (c : Nat) : Bool := 0x30 ≤ c && c ≤ 0x37

/-- The single-character escapes of the literal-string parser; any other
escaped byte maps to itself (map[esc] ?? esc in the source). -/
def escMap (esc : Nat) : Nat :=
  if esc = 0x6e then 0x0a
  else if esc = 0x72 then 0x0d
  else if esc = 0x74 then 0x09
  else if esc = 0x62 then 0x08
  else if esc = 0x66 then 0x0c
  else if esc = 0x28 then 0x28
  else if esc = 0x29 then 0x29
  else if esc = 0x5c then 0x5c
  else esc

/-- The balanced-parenthesis, escape-aware literal-string machine: the
remaining bytes after the current position, the current nesting depth and
the output accumulator.  Mirrors the while loop of the source: reaching
the end of the buffer with positive depth (including a trailing
backslash) throws the unterminated-string error. -/
def litLoop : List Nat → Nat → List Nat → Except PdfError (List Nat)
  | _, 0, out => .ok out
  | [], _ + 1, _ => .error .unterminatedString
  | b :: tl, d + 1, out =>
    if b = 0x5c then
      match tl with
      | [] => .error .unterminatedString
      | esc :: tl2 =>
        if esc = 0x0d then
          match tl2 with
          | 0x0a :: tl3 => litLoop tl3 (d + 1) out
          | [] => litLoop [] (d + 1) out
          | c2 :: tl3 => litLoop (c2 :: tl3) (d + 1) out
        else if esc = 0x0a then litLoop tl2 (d + 1) out
        else if isOctDigit esc then
          match tl2 with
          | [] => litLoop [] (d + 1) (out ++ [(esc - 0x30) % 256])
          | d2 :: tl3 =>
            if isOctDigit d2 then
              match tl3 with
              | [] => litLoop [] (d + 1) (out ++ [((esc - 0x30) * 8 + (d2 - 0x30)) % 256])
              | d3 :: tl4 =>
                if isOctDigit d3 then
                  litLoop tl4 (d + 1)
                    (out ++ [((esc - 0x30) * 64 + (d2 - 0x30) * 8 + (d3 - 0x30)) % 256])
                else litLoop (d3 :: tl4) (d + 1)
                  (out ++ [((esc - 0x30) * 8 + (d2 - 0x30)) % 256])
            else litLoop (d2 :: tl3) (d + 1) (out ++ [(esc - 0x30) % 256])
        else litLoop tl2 (d + 1) (out ++ [escMap esc])
    else if b = 0x28 then litLoop tl (d + 2) (out ++ [b])
    else if b = 0x29 then
      if d = 0 then .ok out else litLoop tl d (out ++ [b])
    else litLoop tl (d + 1) (out ++ [b])

/-- Hex-string character collection: consume until the closing angle
bracket (or end of buffer), dropping whitespace; no validation. -/
def hexCollect : List Nat → List Nat
  | [] => []
  | c :: tl =>
    if c = 0x3e then []
    else if pdfIsWhite c then hexCollect tl
    else c :: hexCollect tl

/-- parseInt(s, 16) on a short character run: skip leading whitespace,
optional sign, optional 0x prefix, then the longest leading run of hex
digits; no digits is NaN (none).  Modelled from the spec: this is the
platform parseInt with radix 16. -/
def jsParseIntHex (chars : List Nat) : Option Int :=
  let core : List Nat → Option Nat := fun l2 =>
    let ds := l2.takeWhile fun c => (hexDigitVal c).isSome
    if ds = [] then none
    else some (ds.foldl (fun a c => a * 16 + (hexDigitVal c).getD 0) 0)
  let signed : List Nat → Option Int := fun l =>
    match l with
    | 0x30 :: 0x78 :: tl => core tl
    | 0x30 :: 0x58 :: tl => core tl
    | l2 => core l2
  let trimmed := chars.dropWhile fun c =>
    c = 0x09 || c = 0x0a || c = 0x0b || c = 0x0c || c = 0x0d || c = 0x20 || c = 0xa0
  match trimmed with
  | 0x2d :: tl => (signed tl).map (fun v => -v)
  | 0x2b :: tl => signed tl
  | l => signed l

/-- Uint8Array element store: NaN becomes 0, anything else is taken
modulo 256. -/
def toUint8 : Option Int → Nat
  | none => 0
  | some v => (v % 256).toNat

/-- Pair up hex characters (already padded to even length) and convert
each pair with parseInt semantics. -/
def hexPairsToBytes : List Nat → List Nat
  | a :: b :: tl => toUint8 (jsParseIntHex [a, b]) :: hexPairsToBytes tl
  | _ => []

/-- Whole hex-string token decoding starting just after the opening angle
bracket: collect, pad odd digit counts with an implicit 0 digit, pair. -/
def hexStringBytes (tl : List Nat) : List Nat :=
  let hx := hexCollect tl
  let hx2 := if hx.length % 2 = 1 then hx ++ [0x30] else hx
  hexPairsToBytes hx2

/-- The marker key, /CertPayload, as byte values. -/
def certMarker : List Nat :=
  [0x2f, 0x43, 0x65, 0x72, 0x74, 0x50, 0x61, 0x79, 0x6c, 0x6f, 0x61, 0x64]

/-- First occurrence search: the suffix immediately after the first
occurrence of the marker (text.indexOf + marker length in the source). -/
def afterMarker : List Nat → Option (List Nat)
  | [] => none
  | c :: tl =>
    if certMarker.isPrefixOf (c :: tl) then some ((c :: tl).drop 12)
    else afterMarker tl

/-- Whitespace skipping after the marker. -/
def skipPdfWhite : List Nat → List Nat
  | [] => []
  | c :: tl => if pdfIsWhite c then skipPdfWhite tl else c :: tl

/-- Byte-level extraction: find the marker, skip whitespace, dispatch on
the token opener, and decode the token to raw payload bytes. -/
def extractPayloadBytes (bytes : List Nat) : Except PdfError (List Nat) :=
  match afterMarker bytes with
  | none => .error .noPayloadFound
  | some s =>
    match skipPdfWhite s with
    | [] => .error .malformedPayload
    | c :: tl =>
      if c = 0x28 then litLoop tl 1 []
      else if c = 0x3c then .ok (hexStringBytes tl)
      else .error .unsupportedFormat

/-! ### Text decoding (decodePdfStringBytes)

The three TextDecoder instances the source constructs are platform
services.  Modelled from the spec: the UTF-16 decoders combine byte
pairs into code units (big- or little-endian), repair unpaired
surrogates and a dangling final byte with U+FFFD, and strip a leading
byte-order mark of their own endianness; the fatal UTF-8 decoder
rejects any ill-formed sequence (overlong forms, surrogates, values
above U+10FFFF, truncation) and strips a UTF-8 byte-order mark; the
single-byte fallback decoder maps each byte to the code point of the
same numeric value and never fails. -/

def stripBom (bom l : List Nat) : List Nat :=
  if bom.isPrefixOf l then l.drop bom.length else l

/-- UTF-16 byte-pair decoding with surrogate repair.  `swap` selects
little-endian pairing.  The second argument is a pending high (leading)
surrogate.  An unpaired surrogate becomes U+FFFD; at end of input a
pending surrogate or a dangling odd byte becomes one U+FFFD. -/
def utf16Loop (swap : Bool) : List Nat → Option Nat → List Nat
  | [], none => []
  | [], some _ => [0xfffd]
  | [_], _ => [0xfffd]
  | b1 :: b2 :: tl, pend =>
    let u := if swap then b2 * 256 + b1 else b1 * 256 + b2
    match pend with
    | some h =>
      if isLowSur u then h :: u :: utf16Loop swap tl none
      else if isHighSur u then 0xfffd :: utf16Loop swap tl (some u)
      else 0xfffd :: u :: utf16Loop swap tl none
    | none =>
      if isHighSur u then utf16Loop swap tl (some u)
      else if isLowSur u then 0xfffd :: utf16Loop swap tl none
      else u :: utf16Loop swap tl none

def utf16beDecode (l : List Nat) : List Nat :=
  utf16Loop false (stripBom [0xfe, 0xff] l) none

def utf16leDecode (l : List Nat) : List Nat :=
  utf16Loop true (stripBom [0xff, 0xfe] l) none

/-- Code point to UTF-16 code units. -/
def cpToUnits (cp : Nat) : List Nat :=
  if cp < 0x10000 then [cp]
  else [0xd800 + (cp - 0x10000) / 0x400, 0xdc00 + (cp - 0x10000) % 0x400]

def isCont (b : Nat) : Bool := 0x80 ≤ b && b < 0xc0

/-- Strict (fatal) UTF-8 decoding to UTF-16 code units; none on any
ill-formed byte sequence. -/
def utf8Dec : List Nat → Option (List Nat)
  | [] => some []
  | b :: tl =>
    if b < 0x80 then (utf8Dec tl).map (b :: ·)
    else if b < 0xc2 then none
    else if b < 0xe0 then
      match tl with
      | b2 :: tl2 =>
        if isCont b2 then
          (utf8Dec tl2).map (((b - 0xc0) * 64 + (b2 - 0x80)) :: ·)
        else none
      | [] => none
    else if b < 0xf0 then
      match tl with
      | b2 :: b3 :: tl3 =>
        if (if b = 0xe0 then 0xa0 ≤ b2 && b2 < 0xc0
            else if b = 0xed then 0x80 ≤ b2 && b2 < 0xa0
            else isCont b2) && isCont b3 then
          (utf8Dec tl3).map
            (((b - 0xe0) * 4096 + (b2 - 0x80) * 64 + (b3 - 0x80)) :: ·)
        else none
      | _ => none
    else if b < 0xf5 then
      match tl with
      | b2 :: b3 :: b4 :: tl4 =>
        if (if b = 0xf0 then 0x90 ≤ b2 && b2 < 0xc0
            else if b = 0xf4 then 0x80 ≤ b2 && b2 < 0x90
            else isCont b2) && isCont b3 && isCont b4 then
          (utf8Dec tl4).map
            (cpToUnits ((b - 0xf0) * 0x40000 + (b2 - 0x80) * 4096 +
              (b3 - 0x80) * 64 + (b4 - 0x80)) ++ ·)
        else none
      | _ => none
    else none

def utf8Decode (l : List Nat) : Option (List Nat) :=
  utf8Dec (stripBom [0xef, 0xbb, 0xbf] l)

/-- decodePdfStringBytes: BOM-dispatched decoding of the extracted raw
payload bytes, with the lossless single-byte fallback (identity on code
points) when strict UTF-8 fails. -/
def decodePdfStringBytes (u8 : List Nat) : List Nat :=
  match u8 with
  | 0xfe :: 0xff :: rest => utf16beDecode rest
  | 0xff :: 0xfe :: rest => utf16leDecode rest
  | _ =>
    match utf8Decode u8 with
    | some s => s
    | none => u8

/-! ### Payload shape checking and the two flows -/

/-- JS truthiness of a JSON-parsed value: null, false, 0 and the empty
string are falsy; every array and object is truthy. -/
def truthy : JsonValue → Bool
  | .null => false
  | .bool b => b
  | .num n => n ≠ 0
  | .str s => s ≠ []
  | .arr _ => true
  | .obj _ => true

/-- Property access obj[k] on a JSON-parsed value: only objects carry
own data properties here; on every other value the named property is
absent (undefined). -/
def getProp (v : JsonValue) (k : List Nat) : Option JsonValue :=
  match v with
  | .obj fs => lookupKey k fs
  | _ => none

def certKey : List Nat := [0x63, 0x65, 0x72, 0x74]

def sigKey : List Nat := [0x73, 0x69, 0x67]

/-- The shape test both flows perform: obj, obj.cert and obj.sig all
truthy (the negation of `!obj || !obj.cert || !obj.sig`). -/
def hasCertSig (v : JsonValue) : Bool :=
  truthy v &&
    (match getProp v certKey with | some c => truthy c | none => false) &&
    (match getProp v sigKey with | some s0 => truthy s0 | none => false)

/-- parsePayloadJson: JSON.parse the decoded text and check the shape,
but the shape error is thrown inside the same try whose catch rethrows
the not-valid-JSON error, so both failures surface as notValidJson. -/
def parsePayloadJson (jsonText : List Nat) : Except PdfError JsonValue :=
  match jsonParse jsonText with
  | some obj => if hasCertSig obj then .ok obj else .error .notValidJson
  | none => .error .notValidJson

/-- The whole PDF extraction pipeline on the raw file bytes (the
latin1 pre-decode of the buffer is the identity on byte values, so the
marker scan runs on the bytes themselves). -/
def extractPayloadFromPdfFile (bytes : List Nat) : Except PdfError JsonValue := do
  let raw ← extractPayloadBytes bytes
  parsePayloadJson (decodePdfStringBytes raw)

def invalidPayloadMsg : List Nat :=
  [0x49, 0x6e, 0x76, 0x61, 0x6c, 0x69, 0x64, 0x20, 0x70, 0x61, 0x79,
   0x6c, 0x6f, 0x61, 0x64, 0x20, 0x66, 0x6f, 0x72, 0x6d, 0x61, 0x74, 0x2e]

def sigValidMsg : List Nat :=
  [0x53, 0x69, 0x67, 0x6e, 0x61, 0x74, 0x75, 0x72, 0x65, 0x20, 0x69,
   0x73, 0x20, 0x76, 0x61, 0x6c, 0x69, 0x64, 0x2e]

def sigFailedMsg : List Nat :=
  [0x53, 0x69, 0x67, 0x6e, 0x61, 0x74, 0x75, 0x72, 0x65, 0x20, 0x76,
   0x65, 0x72, 0x69, 0x66, 0x69, 0x63, 0x61, 0x74, 0x69, 0x6f, 0x6e,
   0x20, 0x66, 0x61, 0x69, 0x6c, 0x65, 0x64, 0x2e]

/-- The decision runHashFlow makes once the payload object is resolved,
parametrised by the signature verifier it would call on (cert, sig):
the show status/message pair.  On a failed shape test the verifier is
not consulted at all. -/
def runHashFlowStep (obj : JsonValue)
    (verify : JsonValue → JsonValue → Bool) : Bool × List Nat :=
  if hasCertSig obj then
    let c := (getProp obj certKey).getD .null
    let s := (getProp obj sigKey).getD .null
    let ok := verify c s
    (ok, if ok then sigValidMsg else sigFailedMsg)
  else (false, invalidPayloadMsg)

/-! ### Signature verification (src/crypt.js)

atob and crypto.subtle are platform services.  Modelled from the spec:
atob is the forgiving-base64 decoder (strip ASCII whitespace, strip up
to two trailing padding signs when the length is a multiple of four,
reject a remainder of one or any character outside the alphabet);
crypto.subtle.verify on an RSASSA-PKCS1-v1_5 key resolves to the boolean
verdict of the key's verification predicate on the message and raw
signature bytes, and rejects only when the key/algorithm combination is
unusable — a mismatched signature is the value false, not a rejection. -/

inductive CryptError where
  | invalidCharacter
  | invalidAccess
deriving DecidableEq

def b64Val (c : Nat) : Option Nat :=
  if 0x41 ≤ c ∧ c ≤ 0x5a then some (c - 0x41)
  else if 0x61 ≤ c ∧ c ≤ 0x7a then some (c - 0x61 + 26)
  else if 0x30 ≤ c ∧ c ≤ 0x39 then some (c - 0x30 + 52)
  else if c = 0x2b then some 62
  else if c = 0x2f then some 63
  else none

def b64Quads : List Nat → Option (List Nat)
  | [] => some []
  | [a, b] => do
    let va ← b64Val a
    let vb ← b64Val b
    pure [va * 4 + vb / 16]
  | [a, b, c] => do
    let va ← b64Val a
    let vb ← b64Val b
    let vc ← b64Val c
    pure [va * 4 + vb / 16, (vb % 16) * 16 + vc / 4]
  | a :: b :: c :: d :: tl => do
    let va ← b64Val a
    let vb ← b64Val b
    let vc ← b64Val c
    let vd ← b64Val d
    let rest ← b64Quads tl
    pure ((va * 4 + vb / 16) :: ((vb % 16) * 16 + vc / 4) :: ((vc % 4) * 64 + vd) :: rest)
  | [_] => none

def stripPad (t : List Nat) : List Nat :=
  match t.reverse with
  | 0x3d :: 0x3d :: r => r.reverse
  | 0x3d :: r => r.reverse
  | _ => t

def asciiWsB64 (c : Nat) : Bool :=
  c = 0x09 || c = 0x0a || c = 0x0c || c = 0x0d || c = 0x20

def atob (s : List Nat) : Option (List Nat) :=
  let t := s.filter fun c => !asciiWsB64 c
  let t2 := if t.length % 4 = 0 then stripPad t else t
  if t2.length % 4 = 1 then none else b64Quads t2

/-- An imported RSASSA-PKCS1-v1_5 public key: whether the key/algorithm
combination is usable for verify, and the verification predicate the
platform evaluates on (message bytes, raw signature bytes). -/
structure RsaKeySpec where
  algOk : Bool
  verifies : List Nat → List Nat → Bool

def subtleVerify (key : RsaKeySpec) (sigRaw dataBytes : List Nat) :
    Except CryptError Bool :=
  if key.algOk then .ok (key.verifies dataBytes sigRaw)
  else .error .invalidAccess

/-- verifyPkcs1v15: decode the base64 signature with atob (a malformed
signature string throws InvalidCharacterError), then ask the platform
verifier. -/
def verifyPkcs1v15 (publicKey : RsaKeySpec) (dataBytes signatureB64 : List Nat) :
    Except CryptError Bool :=
  match atob signatureB64 with
  | none => .error .invalidCharacter
  | some sigRaw => subtleVerify publicKey sigRaw dataBytes

/-- TextEncoder().encode: UTF-8 encoding of a UTF-16 code-unit string,
with each lone surrogate encoded as U+FFFD.  Modelled from the spec. -/
def utf8EncodeUnits : List Nat → List Nat
  | [] => []
  | u :: tl =>
    if u < 0x80 then u :: utf8EncodeUnits tl
    else if u < 0x800 then (0xc0 + u / 64) :: (0x80 + u % 64) :: utf8EncodeUnits tl
    else if isHighSur u then
      match tl with
      | v :: tl2 =>
        if isLowSur v then
          let cp := 0x10000 + (u - 0xd800) * 0x400 + (v - 0xdc00)
          (0xf0 + cp / 0x40000) :: (0x80 + cp / 4096 % 64) :: (0x80 + cp / 64 % 64) ::
            (0x80 + cp % 64) :: utf8EncodeUnits tl2
        else 0xef :: 0xbf :: 0xbd :: utf8EncodeUnits (v :: tl2)
      | [] => [0xef, 0xbf, 0xbd]
    else if isLowSur u then 0xef :: 0xbf :: 0xbd :: utf8EncodeUnits tl
    else (0xe0 + u / 4096) :: (0x80 + u / 64 % 64) :: (0x80 + u % 64) :: utf8EncodeUnits tl

/-- verifyCertObject: canonicalize the cert value, UTF-8 encode the
canonical text, verify the signature over those bytes. -/
def verifyCertObject (certObj : JsonValue) (sigB64 : List Nat)
    (publicKey : RsaKeySpec) : Except CryptError Bool :=
  verifyPkcs1v15 publicKey (utf8EncodeUnits (canonicalJSONString certObj)) sigB64

/-! ### Result rendering (show) -/

def okClass : List Nat := [0x6f, 0x6b]

def errClass : List Nat := [0x65, 0x72, 0x72]

/-- The status text both arms of the ternary in the template produce:
the check-mark emoji U+2705, a space, and the word Verified. -/
def verifiedText : List Nat :=
  [0x2705, 0x20, 0x56, 0x65, 0x72, 0x69, 0x66, 0x69, 0x65, 0x64]

def showChunk1 : List Nat :=
  [0x0a, 0x20, 0x20, 0x20, 0x20, 0x3c, 0x70, 0x20, 0x63, 0x6c, 0x61,
   0x73, 0x73, 0x3d, 0x22]

def showChunk2 : List Nat := [0x22, 0x3e]

def showChunk3 : List Nat :=
  [0x20, 0x3c, 0x2f, 0x70, 0x3e, 0x0a, 0x20, 0x20, 0x20, 0x20]

def preOpen : List Nat :=
  [0x3c, 0x70, 0x72, 0x65, 0x3e, 0x3c, 0x63, 0x6f, 0x64, 0x65, 0x3e]

def preClose : List Nat :=
  [0x3c, 0x2f, 0x63, 0x6f, 0x64, 0x65, 0x3e, 0x3c, 0x2f, 0x70, 0x72, 0x65, 0x3e]

def showChunk4 : List Nat := [0x0a, 0x20, 0x20]

/-- The innerHTML the show function assigns (show is a Lean keyword, so
the definition is named showResult).  The ternaries are transcribed as
written: the status picks the CSS class, both status texts are the same
verified text, and the message parameter does not occur in the
template. -/
def showResult (status : Bool) (message details : List Nat) : List Nat :=
  showChunk1 ++ (if status then okClass else errClass) ++ showChunk2 ++
    (if status then verifiedText else verifiedText) ++ showChunk3 ++
    (if details ≠ [] then preOpen ++ details ++ preClose else []) ++ showChunk4

/-! ## The claims -/

/-- Claim C1: for every imported key whose algorithm combination is
usable and every well-formed base64 signature string, verifyPkcs1v15
returns the boolean verdict of the key's verification predicate — a
mismatched signature is the value false, never an error — and an error
arises only from malformed base64 or an unusable key/algorithm
combination; verifyCertObject passes the UTF-8 bytes of the canonical
cert text to the same verifier. -/
theorem C1_verify_returns_boolean :
    (∀ (key : RsaKeySpec) (msg sigB64 raw : List Nat), key.algOk = true →
      atob sigB64 = some raw →
      verifyPkcs1v15 key msg sigB64 = .ok (key.verifies msg raw)) ∧
    (∀ (key : RsaKeySpec) (msg sigB64 : List Nat) (e : CryptError),
      verifyPkcs1v15 key msg sigB64 = .error e →
      atob sigB64 = none ∨ key.algOk = false) ∧
    (∀ (certObj : JsonValue) (sigB64 raw : List Nat) (key : RsaKeySpec),
      key.algOk = true → atob sigB64 = some raw →
      verifyCertObject certObj sigB64 key =
        .ok (key.verifies (utf8EncodeUnits (canonicalJSONString certObj)) raw)) := by
  refine ⟨?_, ?_, ?_⟩
  · intro key msg sigB64 raw halg hb64
    simp [verifyPkcs1v15, subtleVerify, hb64, halg]
  · intro key msg sigB64 e h
    cases hat : atob sigB64 with
    | none => exact .inl rfl
    | some raw =>
      cases hk : key.algOk with
      | false => exact .inr rfl
      | true => simp [verifyPkcs1v15, subtleVerify, hat, hk] at h
  · intro certObj sigB64 raw key halg hb64
    simp [verifyCertObject, verifyPkcs1v15, subtleVerify, hb64, halg]

/-- Claim C3: two object field lists equal as key-value maps (a
permutation of one another, with no duplicate keys) canonicalize to
identical texts, whatever the insertion order was. -/
theorem C3_order_insensitive (l₁ l₂ : List (List Nat × JsonValue))
    (hperm : l₁.Perm l₂) (hnd : NodupKeys l₁)
    (hwf : WFb (.obj l₁) = true) :
    canonicalJSONString (.obj l₁) = canonicalJSONString (.obj l₂) := by
  have hm : (canonFieldsC l₁).Perm (canonFieldsC l₂) := by
    rw [canonFieldsC_eq_map, canonFieldsC_eq_map]
    exact hperm.map _
  have hnd1 : NodupKeys (canonFieldsC l₁) := by
    rw [canonFieldsC_eq_map]
    exact nodupKeys_map_val
      (fun v => if objectLike v then (jsonParse (canonicalJSONString v)).getD v else v) hnd
  have hnd2 : NodupKeys (canonFieldsC l₂) := nodupKeys_of_perm hm hnd1
  have e1 : sortPairs (jsOrder (canonFieldsC l₁)) = sortPairs (canonFieldsC l₁) :=
    sortPairs_eq_of_perm (jsOrder_perm _)
      (nodupKeys_of_perm (jsOrder_perm _).symm hnd1)
  have e2 : sortPairs (canonFieldsC l₁) = sortPairs (canonFieldsC l₂) :=
    sortPairs_eq_of_perm hm hnd1
  have e3 : sortPairs (canonFieldsC l₂) = sortPairs (jsOrder (canonFieldsC l₂)) :=
    (sortPairs_eq_of_perm (jsOrder_perm _)
      (nodupKeys_of_perm (jsOrder_perm _).symm hnd2)).symm
  show jsStringify (.obj (sortPairs (jsOrder (canonFieldsC l₁)))) =
    jsStringify (.obj (sortPairs (jsOrder (canonFieldsC l₂))))
  rw [e1, e2, e3]

/-- Claim C3 witness: two concrete two-field objects differing only in
insertion order render the same canonical text. -/
theorem C3_order_insensitive_witness :
    ([([0x62], JsonValue.num 1), ([0x61], JsonValue.num 2)] :
      List (List Nat × JsonValue)).Perm
        [([0x61], JsonValue.num 2), ([0x62], JsonValue.num 1)] ∧
    NodupKeys ([([0x62], JsonValue.num 1), ([0x61], JsonValue.num 2)] :
      List (List Nat × JsonValue)) ∧
    WFb (.obj [([0x62], JsonValue.num 1), ([0x61], JsonValue.num 2)]) = true ∧
    canonicalJSONString (.obj [([0x62], JsonValue.num 1), ([0x61], JsonValue.num 2)]) =
      canonicalJSONString (.obj [([0x61], JsonValue.num 2), ([0x62], JsonValue.num 1)]) :=
  ⟨List.Perm.swap _ _ _, by decide, by decide,
    C3_order_insensitive _ _ (List.Perm.swap _ _ _) (by decide) (by decide)⟩

/-- Claim C4: canonicalizing any well-formed value, parsing the
canonical text back, and canonicalizing the parsed value again yields
the same text as the first canonicalization. -/
theorem C4_idempotent (v : JsonValue) (h : WFb v = true) :
    ∃ v', jsonParse (canonicalJSONString v) = some v' ∧
      canonicalJSONString v' = canonicalJSONString v :=
  ⟨canonValue v, jsonParse_canonical v h, canonical_canonValue v h⟩

/-- Claim C4 witness: the round trip at a concrete nested object. -/
theorem C4_idempotent_witness :
    WFb (.obj [([0x61], JsonValue.arr [.num 1, .null])]) = true ∧
    ∃ v', jsonParse (canonicalJSONString
        (.obj [([0x61], JsonValue.arr [.num 1, .null])])) = some v' ∧
      canonicalJSONString v' =
        canonicalJSONString (.obj [([0x61], JsonValue.arr [.num 1, .null])]) :=
  ⟨by decide, C4_idempotent _ (by decide)⟩

/-- Claim C7: decodePdfStringBytes dispatches in order — a leading
FE FF selects UTF-16BE for the rest, a leading FF FE selects UTF-16LE,
otherwise strict UTF-8 is tried, and when it fails the total
single-byte fallback returns each byte as the code point of the same
numeric value. -/
theorem C7_decode_dispatch :
    (∀ rest, decodePdfStringBytes (0xfe :: 0xff :: rest) = utf16beDecode rest) ∧
    (∀ rest, decodePdfStringBytes (0xff :: 0xfe :: rest) = utf16leDecode rest) ∧
    (∀ u8 s, (∀ r, u8 ≠ 0xfe :: 0xff :: r) → (∀ r, u8 ≠ 0xff :: 0xfe :: r) →
      utf8Decode u8 = some s → decodePdfStringBytes u8 = s) ∧
    (∀ u8, (∀ r, u8 ≠ 0xfe :: 0xff :: r) → (∀ r, u8 ≠ 0xff :: 0xfe :: r) →
      utf8Decode u8 = none → decodePdfStringBytes u8 = u8) := by
  refine ⟨fun rest => rfl, fun rest => rfl, ?_, ?_⟩
  · intro u8 s hbe hle h8
    unfold decodePdfStringBytes
    split
    · exact absurd rfl (hbe _)
    · exact absurd rfl (hle _)
    · rw [h8]
  · intro u8 hbe hle h8
    unfold decodePdfStringBytes
    split
    · exact absurd rfl (hbe _)
    · exact absurd rfl (hle _)
    · rw [h8]

/-- Claim C9 (amended): after any acquisition path the shape test
requires truthy cert and sig; on failure the hash flow shows the
invalid-payload-format message and the verifier is never consulted,
while the PDF path's parsePayloadJson reports the shape failure as the
same not-valid-JSON error an unparsable text produces. -/
theorem C9_shape_check :
    (∀ (obj : JsonValue) (verify : JsonValue → JsonValue → Bool),
      hasCertSig obj = false →
      runHashFlowStep obj verify = (false, invalidPayloadMsg) ∧
      ∀ verify2, runHashFlowStep obj verify = runHashFlowStep obj verify2) ∧
    (∀ text v, jsonParse text = some v → hasCertSig v = false →
      parsePayloadJson text = .error .notValidJson) ∧
    (∀ text, jsonParse text = none →
      parsePayloadJson text = .error .notValidJson) := by
  refine ⟨?_, ?_, ?_⟩
  · intro obj verify h
    refine ⟨by simp [runHashFlowStep, h], fun verify2 => ?_⟩
    simp [runHashFlowStep, h]
  · intro text v hp hs
    simp [parsePayloadJson, hp, hs]
  · intro text hp
    simp [parsePayloadJson, hp]

/-- Claim C9 counterexample: on the PDF path a well-formed JSON object
missing sig and an unparsable text produce the very same error — the
shape failure is not a distinct invalid-payload-shape outcome. -/
theorem C9_pdf_conflation :
    extractPayloadFromPdfFile (certMarker ++
      [0x20, 0x28, 0x7b, 0x22, 0x63, 0x65, 0x72, 0x74, 0x22, 0x3a,
       0x22, 0x78, 0x22, 0x7d, 0x29]) = .error .notValidJson ∧
    extractPayloadFromPdfFile (certMarker ++
      [0x20, 0x28, 0x6e, 0x6f, 0x70, 0x65, 0x29]) = .error .notValidJson :=
  ⟨rfl, rfl⟩

/-- Claim C9 witness: a concrete object carrying only cert fails the
shape test, the hash flow reports the invalid-payload message without
consulting the verifier, and parsePayloadJson turns the same shape
failure into the not-valid-JSON error. -/
theorem C9_shape_check_witness :
    hasCertSig (.obj [([0x63, 0x65, 0x72, 0x74], .str [0x78])]) = false ∧
    runHashFlowStep (.obj [([0x63, 0x65, 0x72, 0x74], .str [0x78])])
      (fun _ _ => true) = (false, invalidPayloadMsg) ∧
    parsePayloadJson [0x7b, 0x22, 0x63, 0x65, 0x72, 0x74, 0x22, 0x3a,
      0x22, 0x78, 0x22, 0x7d] = .error .notValidJson :=
  ⟨by decide,
    (C9_shape_check.1 _ _ (by decide)).1,
    C9_shape_check.2.1 _ (.obj [([0x63, 0x65, 0x72, 0x74], .str [0x78])])
      (by rfl) (by decide)⟩

/-- Claim C10: the rendered result line carries the verified text for
both values of the status flag — only the CSS class differs — and the
message argument never reaches the output, so failures and successes
display the same success text. -/
theorem C10_show_always_verified :
    (∀ status m m2 d, showResult status m d = showResult status m2 d) ∧
    (∀ status m d, ∃ pre post,
      showResult status m d = pre ++ verifiedText ++ post) ∧
    (∀ m d, ∃ rest,
      showResult true m d = showChunk1 ++ okClass ++ rest ∧
      showResult false m d = showChunk1 ++ errClass ++ rest) := by
  refine ⟨fun status m m2 d => rfl, ?_, ?_⟩
  · intro status m d
    refine ⟨showChunk1 ++ (if status then okClass else errClass) ++ showChunk2,
      showChunk3 ++ (if d ≠ [] then preOpen ++ d ++ preClose else []) ++
        showChunk4, ?_⟩
    simp [showResult, List.append_assoc]
  · intro m d
    refine ⟨showChunk2 ++ verifiedText ++ showChunk3 ++
      (if d ≠ [] then preOpen ++ d ++ preClose else []) ++ showChunk4, ?_, ?_⟩
    · simp [showResult, List.append_assoc]
    · simp [showResult, List.append_assoc]

/-- Claim C2 counterexample: the canonicalizer puts "2" before "10"
(array-index keys come first in numeric order), and keys compare by
UTF-16 code unit, so the surrogate-pair key U+1F600 lands before the
BMP key U+FFFD even though its code point is larger. -/
theorem C2_key_order_counterexample :
    canonicalJSONString (.obj [([0x31, 0x30], .num 1), ([0x32], .num 2)]) =
      [0x7b, 0x22, 0x32, 0x22, 0x3a, 0x32, 0x2c, 0x22, 0x31, 0x30,
       0x22, 0x3a, 0x31, 0x7d] ∧
    canonicalJSONString (.obj [([0xfffd], .num 1), ([0xd83d, 0xde00], .num 2)]) =
      [0x7b, 0x22, 0xd83d, 0xde00, 0x22, 0x3a, 0x32, 0x2c, 0x22, 0xfffd,
       0x22, 0x3a, 0x31, 0x7d] := by
  exact ⟨by decide, by decide⟩

/-- Claim C2 (amended): the canonical text renders object keys in JS
own-property enumeration order of the sorted object — array-index keys
first, numerically ascending, then the remaining keys in ascending
UTF-16 code-unit order — recursively at every level (the canonical text
is the serialization of the recursively canonicalized value). -/
theorem C2_canonical_key_order :
    (∀ l : List (List Nat × JsonValue), NodupKeys l →
      ((jsOrder (sortPairs l)).map Prod.fst).Perm (l.map Prod.fst) ∧
      ((jsOrder (sortPairs l)).map Prod.fst).Pairwise canonKeyOrd) ∧
    (∀ v, WFb v = true → canonicalJSONString v = jsStringify (canonValue v)) ∧
    (∀ fs, canonValue (.obj fs) = .obj (jsOrder (sortPairs (canonFields fs)))) :=
  ⟨fun l h => ⟨canonKeys_perm l, canonKeys_pairwise l h⟩,
    fun v h => canonicalJSONString_eq v h,
    fun fs => rfl⟩

/-- Claim C6 counterexample: a hex-string token whose characters are
not hex digits is not rejected — parseInt yields NaN, the typed-array
store turns NaN into 0, and extraction succeeds with the byte 0. -/
theorem C6_nonhex_not_rejected :
    extractPayloadBytes (certMarker ++ [0x20, 0x3c, 0x5a, 0x5a, 0x3e]) =
      .ok [0] ∧
    jsParseIntHex [0x5a, 0x5a] = none ∧ toUint8 none = 0 := by
  exact ⟨by decide, by decide, rfl⟩

/-- Claim C6 (amended): hex parsing collects characters up to the
closing angle bracket (or the end of the buffer), dropping whitespace;
an odd digit count is padded with one implicit 0 digit; each pair is
converted with parseInt radix-16 prefix semantics, so invalid
characters are never rejected — a pair with a leading hex digit keeps
the digit's value and a pair with none stores 0. -/
theorem C6_hex_string :
    (∀ l, hexCollect l =
      (l.takeWhile fun c => c != 0x3e).filter fun c => !pdfIsWhite c) ∧
    (∀ tl, hexStringBytes tl = hexPairsToBytes
      (if (hexCollect tl).length % 2 = 1 then hexCollect tl ++ [0x30]
       else hexCollect tl)) ∧
    (∀ a b tl, hexPairsToBytes (a :: b :: tl) =
      toUint8 (jsParseIntHex [a, b]) :: hexPairsToBytes tl) ∧
    hexStringBytes [0x34, 0x38, 0x36, 0x35, 0x36, 0x43, 0x36, 0x43, 0x36,
      0x46, 0x3e] = [0x48, 0x65, 0x6c, 0x6c, 0x6f] ∧
    hexStringBytes [0x34, 0x38, 0x36, 0x35, 0x36, 0x43, 0x36, 0x43, 0x36] =
      hexStringBytes [0x34, 0x38, 0x36, 0x35, 0x36, 0x43, 0x36, 0x43, 0x36,
        0x30] ∧
    hexStringBytes [0x34, 0x38, 0x20, 0x36, 0x35, 0x0a, 0x36, 0x43, 0x36,
      0x43, 0x36, 0x46, 0x3e] = [0x48, 0x65, 0x6c, 0x6c, 0x6f] ∧
    hexStringBytes [0x34, 0x5a, 0x3e] = [4] ∧
    extractPayloadBytes (certMarker ++ [0x20, 0x3c, 0x34, 0x38, 0x36, 0x35,
      0x36, 0x43, 0x36, 0x43, 0x36, 0x46, 0x3e]) =
      .ok [0x48, 0x65, 0x6c, 0x6c, 0x6f] := by
  refine ⟨?_, fun tl => rfl, fun a b tl => rfl, by decide, by decide,
    by decide, by decide, by decide⟩
  intro l
  induction l with
  | nil => rfl
  | cons c tl ih =>
    by_cases h3 : c = 0x3e
    · subst h3
      simp [hexCollect, List.takeWhile_cons]
    · by_cases hw : pdfIsWhite c = true
      · simp [hexCollect, List.takeWhile_cons, h3, hw, ih]
      · simp [hexCollect, List.takeWhile_cons, h3, hw, ih]

/-- Claim C5: literal-string escape handling — backslash before CR, LF
or CRLF emits nothing; backslash before 1–3 octal digits consumes up to
three digits and emits their value modulo 256 as one byte; the standard
single-character escapes map to their control or literal bytes and any
other escaped character emits itself; the token (Hello \(World\))
decodes to the bytes of Hello (World). -/
theorem C5_literal_escapes :
    (∀ (tl out : List Nat) (d : Nat),
      litLoop (0x5c :: 0x0d :: 0x0a :: tl) (d + 1) out = litLoop tl (d + 1) out) ∧
    (∀ (c2 : Nat) (tl out : List Nat) (d : Nat), c2 ≠ 0x0a →
      litLoop (0x5c :: 0x0d :: c2 :: tl) (d + 1) out =
        litLoop (c2 :: tl) (d + 1) out) ∧
    (∀ (tl out : List Nat) (d : Nat),
      litLoop (0x5c :: 0x0a :: tl) (d + 1) out = litLoop tl (d + 1) out) ∧
    (∀ (e1 e2 e3 : Nat) (tl out : List Nat) (d : Nat),
      isOctDigit e1 = true → isOctDigit e2 = true → isOctDigit e3 = true →
      litLoop (0x5c :: e1 :: e2 :: e3 :: tl) (d + 1) out =
        litLoop tl (d + 1)
          (out ++ [((e1 - 0x30) * 64 + (e2 - 0x30) * 8 + (e3 - 0x30)) % 256])) ∧
    (∀ (e1 e2 c : Nat) (tl out : List Nat) (d : Nat),
      isOctDigit e1 = true → isOctDigit e2 = true → isOctDigit c = false →
      litLoop (0x5c :: e1 :: e2 :: c :: tl) (d + 1) out =
        litLoop (c :: tl) (d + 1) (out ++ [((e1 - 0x30) * 8 + (e2 - 0x30)) % 256])) ∧
    (∀ (e1 c : Nat) (tl out : List Nat) (d : Nat),
      isOctDigit e1 = true → isOctDigit c = false →
      litLoop (0x5c :: e1 :: c :: tl) (d + 1) out =
        litLoop (c :: tl) (d + 1) (out ++ [(e1 - 0x30) % 256])) ∧
    (∀ (esc : Nat) (tl out : List Nat) (d : Nat),
      esc ≠ 0x0d → esc ≠ 0x0a → isOctDigit esc = false →
      litLoop (0x5c :: esc :: tl) (d + 1) out =
        litLoop tl (d + 1) (out ++ [escMap esc])) ∧
    (escMap 0x6e = 0x0a ∧ escMap 0x72 = 0x0d ∧ escMap 0x74 = 0x09 ∧
      escMap 0x62 = 0x08 ∧ escMap 0x66 = 0x0c ∧ escMap 0x28 = 0x28 ∧
      escMap 0x29 = 0x29 ∧ escMap 0x5c = 0x5c) ∧
    (∀ esc : Nat, esc ∉ [0x6e, 0x72, 0x74, 0x62, 0x66, 0x28, 0x29, 0x5c] →
      escMap esc = esc) ∧
    extractPayloadBytes (certMarker ++
      [0x20, 0x28, 0x48, 0x65, 0x6c, 0x6c, 0x6f, 0x20, 0x5c, 0x28, 0x57,
       0x6f, 0x72, 0x6c, 0x64, 0x5c, 0x29, 0x29]) =
      .ok [0x48, 0x65, 0x6c, 0x6c, 0x6f, 0x20, 0x28, 0x57, 0x6f, 0x72,
           0x6c, 0x64, 0x29] := by
  refine ⟨?_, ?_, ?_, ?_, ?_, ?_, ?_, by decide, ?_, by decide⟩
  · intro tl out d
    rw [litLoop.eq_def]
    simp
  · intro c2 tl out d h
    rw [litLoop.eq_def]
    simp [h]
  · intro tl out d
    rw [litLoop.eq_def]
    simp
  · intro e1 e2 e3 tl out d h1 h2 h3
    have hx : (0x30 ≤ e1 ∧ e1 ≤ 0x37) := by
      unfold isOctDigit at h1
      simp at h1
      exact h1
    have hne13 : ¬(e1 = 0x0d) := by omega
    have hne10 : ¬(e1 = 0x0a) := by omega
    rw [litLoop.eq_def]
    simp [hne13, hne10, h1, h2, h3]
  · intro e1 e2 c tl out d h1 h2 hc
    have hx : (0x30 ≤ e1 ∧ e1 ≤ 0x37) := by
      unfold isOctDigit at h1
      simp at h1
      exact h1
    have hne13 : ¬(e1 = 0x0d) := by omega
    have hne10 : ¬(e1 = 0x0a) := by omega
    rw [litLoop.eq_def]
    simp [hne13, hne10, h1, h2, hc]
  · intro e1 c tl out d h1 hc
    have hx : (0x30 ≤ e1 ∧ e1 ≤ 0x37) := by
      unfold isOctDigit at h1
      simp at h1
      exact h1
    have hne13 : ¬(e1 = 0x0d) := by omega
    have hne10 : ¬(e1 = 0x0a) := by omega
    rw [litLoop.eq_def]
    simp [hne13, hne10, h1, hc]
  · intro esc tl out d hne13 hne10 hoct
    rw [litLoop.eq_def]
    simp [hne13, hne10, hoct]
  · intro esc h
    simp only [List.mem_cons, List.not_mem_nil, or_false, not_or] at h
    obtain ⟨n1, n2, n3, n4, n5, n6, n7, n8⟩ := h
    simp [escMap, n1, n2, n3, n4, n5, n6, n7, n8]

/-- Claim C8: a literal string that reaches end of buffer before its
nesting depth returns to zero — including a trailing backslash as the
final byte — fails with the unterminated-string error, and that is the
only error the literal-string machine ever produces, so a non-ok run is
exactly this failure; the unterminated token (abc yields it through the
whole extraction pipeline. -/
theorem C8_unterminated :
    (∀ (d : Nat) (out : List Nat),
      litLoop [] (d + 1) out = .error .unterminatedString) ∧
    (∀ (d : Nat) (out : List Nat),
      litLoop [0x5c] (d + 1) out = .error .unterminatedString) ∧
    (∀ (s : List Nat) (d : Nat) (out : List Nat),
      (∃ r, litLoop s d out = .ok r) ∨
        litLoop s d out = .error .unterminatedString) ∧
    extractPayloadBytes (certMarker ++ [0x20, 0x28, 0x61, 0x62, 0x63]) =
      .error .unterminatedString := by
  refine ⟨fun d out => rfl, ?_, ?_, by decide⟩
  · intro d out
    rw [litLoop.eq_def]
    simp
  · intro s d out
    induction s, d, out using litLoop.induct <;>
      first
        | exact .inl ⟨_, rfl⟩
        | exact .inr rfl
        | (rw [litLoop.eq_def]; simp_all)
